import Mathlib

/-!
# Verification of the doc_forge documentation discovery / TOC pipeline

A shallow embedding of `src/doc_forge/source_discovery.py` (classes
`DocumentMetadata` and `DocumentationDiscovery`) together with the parts of
`src/doc_forge/global_info.py` it depends on (`get_doc_structure`).

Python strings are modelled as `List Char` (ASCII fragment: the inputs the
claims are about are ASCII).  Python `pathlib.Path` values are modelled as
lists of path components (`List String`); `str(path)` is the components
interleaved with `'/'`.  The filesystem is modelled as a list of files with
optional contents (`none` models a file whose `open`/`read` raises) plus a
list of extra (possibly empty) directories.  All regular expressions used by
the source are hand-compiled to character-list scanners that reproduce the
leftmost, non-overlapping semantics of `re.finditer` / `re.search` with lazy
groups, `.` not matching a newline, and `$` as used (with or without
`re.MULTILINE`) in each pattern.
-/

namespace DocForge

set_option maxRecDepth 40000

/-- The backquote character, used by the RST regex patterns. -/
def bq : Char := Char.ofNat 96

/-- Python's `\s` / `str.strip` whitespace, ASCII fragment:
space, tab, newline, carriage return, vertical tab, form feed. -/
def pyIsSpace (c : Char) : Bool :=
  c = ' ' ∨ c = '\t' ∨ c = '\n' ∨ c = '\r' ∨ c = Char.ofNat 11 ∨ c = Char.ofNat 12

/-- Python `str.strip()` on a character list. -/
def pyStrip (l : List Char) : List Char :=
  ((l.dropWhile pyIsSpace).reverse.dropWhile pyIsSpace).reverse

/-- Python `str.lower()` (ASCII fragment). -/
def pyLower (l : List Char) : List Char := l.map Char.toLower

/-- Python `str.lower()` on a Lean `String`. -/
def pyLowerS (s : String) : String := String.mk (pyLower s.toList)

/-- One step of Python `str.title()`: the boolean is "previous character was
alphabetic"; an alphabetic character starting a run is upper-cased, later
characters of a run are lower-cased. -/
def pyTitleAux : Bool → List Char → List Char
  | _, [] => []
  | prev, c :: cs =>
    if c.isAlpha then
      (if prev then c.toLower else c.toUpper) :: pyTitleAux true cs
    else
      c :: pyTitleAux false cs

/-- Python `str.title()` (ASCII fragment). -/
def pyTitleCase (l : List Char) : List Char := pyTitleAux false l

/-- Models `stem.replace("_", " ").title()` — the filename-derived fallback title
used throughout the source. -/
def fallbackTitleChars (stem : List Char) : List Char :=
  pyTitleCase (stem.map (fun c => if c = '_' then ' ' else c))

/-- Python `str.split('\n')` on a character list (always non-empty). -/
def splitOnNl : List Char → List (List Char)
  | [] => [[]]
  | c :: cs =>
    match splitOnNl cs with
    | [] => [[]]
    | r :: rs => if c = '\n' then [] :: r :: rs else (c :: r) :: rs

/-- Python `str.count(pattern)`, fuelled: each step consumes at least one
character, so fuel `length + 1` (what `pyCount` passes) always suffices and
the zero-fuel branch is unreachable. -/
def pyCountAux (pat : List Char) : Nat → List Char → Nat
  | 0, _ => 0
  | _, [] => 0
  | fuel + 1, c :: cs =>
    if pat.isPrefixOf (c :: cs) then
      1 + pyCountAux pat fuel ((c :: cs).drop (max 1 pat.length))
    else
      pyCountAux pat fuel cs

/-- Python `str.count(pattern)`: number of non-overlapping occurrences,
scanning left to right (`pattern` is non-empty in every use). -/
def pyCount (pat l : List Char) : Nat := pyCountAux pat (l.length + 1) l

/-- Python `pattern in s` (substring containment) for non-empty `pattern`. -/
def pyContainsSub (pat l : List Char) : Bool := 0 < pyCount pat l

/-- Python `s.startswith((p₁, …, pₙ))`. -/
def startsWithAny (pres : List (List Char)) (l : List Char) : Bool :=
  pres.any (fun p => p.isPrefixOf l)

/-!
## Hand-compiled regular expressions

`lazySeq term l` models a lazy group `(.*?)` (where `.` does not match a
newline) followed by the literal character sequence `term`: it returns the
shortest group such that `term` immediately follows, together with the rest
of the input after `term`, or `none` when a newline or the end of input is
reached first (in which case the whole regex alternative fails, and — as
argued for each caller — every backtracking continuation fails as well).
-/
def lazySeq (term : List Char) : List Char → Option (List Char × List Char)
  | [] => if term.isEmpty then some ([], []) else none
  | c :: cs =>
    if term.isPrefixOf (c :: cs) then some ([], (c :: cs).drop term.length)
    else if c = '\n' then none
    else
      match lazySeq term cs with
      | some (g, r) => some (c :: g, r)
      | none => none

theorem lazySeq_length {term : List Char} :
    ∀ {l g r : List Char}, lazySeq term l = some (g, r) → r.length ≤ l.length := by
  intro l
  induction l with
  | nil =>
    intro g r h
    simp only [lazySeq] at h
    split at h
    · simp only [Option.some.injEq, Prod.mk.injEq] at h
      simp [← h.2]
    · exact absurd h (by simp)
  | cons c cs ih =>
    intro g r h
    simp only [lazySeq] at h
    split at h
    · simp only [Option.some.injEq, Prod.mk.injEq] at h
      rw [← h.2]
      simp [List.length_drop]
    · split at h
      · exact absurd h (by simp)
      · cases hrec : lazySeq term cs with
        | none => rw [hrec] at h; exact absurd h (by simp)
        | some gr =>
          rw [hrec] at h
          cases gr with
          | mk g' r' =>
            simp only [Option.some.injEq, Prod.mk.injEq] at h
            have := ih (g := g') (r := r') hrec
            rw [← h.2]
            simp only [List.length_cons]
            omega

/-- Models `re.finditer(r'\[.*?\]\((.*?)\)', content)` group-1 matches, in order.
At each `'['` the engine needs the first `"]("` on the same line (the lazy
`.*?` cannot cross a newline) and then the first `')'` on the same line; if
either is missing every backtracking continuation fails too, and scanning
resumes one character after the `'['`.  After a successful match scanning
resumes after the closing `')'` (non-overlapping matches). -/
def scanMdLinksAux : Nat → List Char → List (List Char)
  | 0, _ => []
  | _, [] => []
  | fuel + 1, c :: cs =>
    if c = '[' then
      match lazySeq [']', '('] cs with
      | some (_, afterParen) =>
        match lazySeq [')'] afterParen with
        | some (g, rest) => g :: scanMdLinksAux fuel rest
        | none => scanMdLinksAux fuel cs
      | none => scanMdLinksAux fuel cs
    else scanMdLinksAux fuel cs

def scanMdLinks (l : List Char) : List (List Char) :=
  scanMdLinksAux (l.length + 1) l

/-- Models `(l.dropWhile p).length ≤ l.length`, for the termination arguments. -/
theorem length_dropWhile_le' (p : Char → Bool) (l : List Char) :
    (l.dropWhile p).length ≤ l.length := by
  induction l with
  | nil => simp [List.dropWhile]
  | cons a as iha =>
    simp only [List.dropWhile]
    split
    · simp only [List.length_cons]; omega
    · simp

/-- Models `re.finditer(r':doc:`(.*?)`', content)` group-1 matches, in order. -/
def scanDocRolesAux : Nat → List Char → List (List Char)
  | 0, _ => []
  | _, [] => []
  | fuel + 1, c :: cs =>
    if ([':', 'd', 'o', 'c', ':', bq]).isPrefixOf (c :: cs) then
      match lazySeq [bq] (cs.drop 5) with
      | some (g, rest) => g :: scanDocRolesAux fuel rest
      | none => scanDocRolesAux fuel cs
    else scanDocRolesAux fuel cs

def scanDocRoles (l : List Char) : List (List Char) :=
  scanDocRolesAux (l.length + 1) l

/-- The `[^`]*?<` part of the RST hyperlink regex: after the opening
backquote, the lazy negated class scans forward (it may match newlines but
never a backquote) and at each `'<'` the tail `(.*?)>`_` is attempted;
on failure the `'<'` is consumed by the class and scanning continues. -/
def rstHypAfterTick : List Char → Option (List Char × List Char)
  | [] => none
  | c :: cs =>
    if c = '<' then
      match lazySeq ['>', bq, '_'] cs with
      | some gr => some gr
      | none => rstHypAfterTick cs
    else if c = bq then none
    else rstHypAfterTick cs

theorem rstHypAfterTick_length :
    ∀ {l g r : List Char}, rstHypAfterTick l = some (g, r) → r.length ≤ l.length := by
  intro l
  induction l with
  | nil => intro g r h; exact absurd h (by simp [rstHypAfterTick])
  | cons c cs ih =>
    intro g r h
    simp only [rstHypAfterTick] at h
    split at h
    · cases hrec : lazySeq ['>', bq, '_'] cs with
      | none =>
        rw [hrec] at h
        have := ih h
        simp only [List.length_cons]; omega
      | some gr =>
        rw [hrec] at h
        cases gr with
        | mk g' r' =>
          simp only [Option.some.injEq, Prod.mk.injEq] at h
          have := lazySeq_length hrec
          rw [← h.2]
          simp only [List.length_cons]; omega
    · split at h
      · exact absurd h (by simp)
      · have := ih h
        simp only [List.length_cons]; omega

/-- Models `re.finditer(r'`[^`]*?<(.*?)>`_', content)` group-1 matches, in order.
See `rstHypAfterTick`. -/
def scanRstHyperlinksAux : Nat → List Char → List (List Char)
  | 0, _ => []
  | _, [] => []
  | fuel + 1, c :: cs =>
    if c = bq then
      match rstHypAfterTick cs with
      | some (g, rest) => g :: scanRstHyperlinksAux fuel rest
      | none => scanRstHyperlinksAux fuel cs
    else scanRstHyperlinksAux fuel cs

def scanRstHyperlinks (l : List Char) : List (List Char) :=
  scanRstHyperlinksAux (l.length + 1) l

/-- The literal prefix of `r'\.\. include:: (.*?)$'`. -/
def rstIncludePat : List Char := "include:: ".toList

/-- Models `re.finditer(r'\.\. include:: (.*?)$', content, re.MULTILINE)` group-1
matches: wherever the literal `".. include:: "` occurs, the lazy group runs
to the end of the line (`$` under `re.MULTILINE`); the (zero-width) `$` does
not consume the newline. -/
def scanRstIncludesAux : Nat → List Char → List (List Char)
  | 0, _ => []
  | _, [] => []
  | fuel + 1, c :: cs =>
    if (['.', '.', ' '] ++ rstIncludePat).isPrefixOf (c :: cs) then
      (cs.drop 12).takeWhile (fun x => x ≠ '\n') ::
        scanRstIncludesAux fuel
          ((cs.drop 12).drop ((cs.drop 12).takeWhile (fun x => x ≠ '\n')).length)
    else scanRstIncludesAux fuel cs

def scanRstIncludes (l : List Char) : List (List Char) :=
  scanRstIncludesAux (l.length + 1) l

/-- The literal prefix of the Jinja include pattern, after its braces:
`r'\{\% include "(.*?)" \%\}'`. -/
def jinjaOpenPat : List Char := ['\x7b', '%', ' '] ++ "include ".toList ++ ['"']

/-- The 4-character terminator `" %}` of the Jinja include pattern. -/
def jinjaClosePat : List Char := ['"', ' ', '%', '\x7d']

/-- Models `re.finditer(r'\{\% include "(.*?)" \%\}', content)` group-1 matches. -/
def scanJinjaIncludesAux : Nat → List Char → List (List Char)
  | 0, _ => []
  | _, [] => []
  | fuel + 1, c :: cs =>
    if jinjaOpenPat.isPrefixOf (c :: cs) then
      match lazySeq jinjaClosePat (cs.drop 11) with
      | some (g, rest) => g :: scanJinjaIncludesAux fuel rest
      | none => scanJinjaIncludesAux fuel cs
    else scanJinjaIncludesAux fuel cs

def scanJinjaIncludes (l : List Char) : List (List Char) :=
  scanJinjaIncludesAux (l.length + 1) l

/-- The terminator check of `r'\{\{ *include\("(.*?)"\) *\}\}'`: a literal
`")` then a greedy run of spaces then `}}`; greedy backtracking over the
spaces cannot help (a `}` can never match a space), so the check is exact. -/
def tmplCloseCheck (l : List Char) : Option (List Char) :=
  if (['"', ')']).isPrefixOf l then
    let rest2 := (l.drop 2).dropWhile (fun c => c = ' ')
    if (['\x7d', '\x7d']).isPrefixOf rest2 then some (rest2.drop 2) else none
  else none

theorem tmplCloseCheck_length :
    ∀ {l r : List Char}, tmplCloseCheck l = some r → r.length ≤ l.length := by
  intro l r h
  simp only [tmplCloseCheck] at h
  split at h
  · split at h
    · simp only [Option.some.injEq] at h
      have h1 := length_dropWhile_le' (fun c => c = ' ') (l.drop 2)
      rw [← h]
      simp only [List.length_drop] at *
      omega
    · exact absurd h (by simp)
  · exact absurd h (by simp)

/-- The lazy group of the template include pattern: `(.*?)` followed by the
terminator recognised by `tmplCloseCheck`. -/
def lazyTmpl : List Char → Option (List Char × List Char)
  | [] => none
  | c :: cs =>
    match tmplCloseCheck (c :: cs) with
    | some r => some ([], r)
    | none =>
      if c = '\n' then none
      else
        match lazyTmpl cs with
        | some (g, r) => some (c :: g, r)
        | none => none

theorem lazyTmpl_length :
    ∀ {l g r : List Char}, lazyTmpl l = some (g, r) → r.length ≤ l.length := by
  intro l
  induction l with
  | nil => intro g r h; exact absurd h (by simp [lazyTmpl])
  | cons c cs ih =>
    intro g r h
    simp only [lazyTmpl] at h
    split at h
    · rename_i r' hc
      simp only [Option.some.injEq, Prod.mk.injEq] at h
      have := tmplCloseCheck_length hc
      rw [← h.2]; exact this
    · split at h
      · exact absurd h (by simp)
      · split at h
        · rename_i g' r' hrec
          simp only [Option.some.injEq, Prod.mk.injEq] at h
          have := ih (g := g') (r := r') hrec
          rw [← h.2]
          simp only [List.length_cons]; omega
        · exact absurd h (by simp)

/-- The literal prefix `include("` that must follow `{{` + spaces. -/
def tmplInclPat : List Char := "include(".toList ++ ['"']

/-- Models `re.finditer(r'\{\{ *include\("(.*?)"\) *\}\}', content)` group-1
matches: after a literal `{{`, a greedy run of spaces, then `include("`
(greedy backtracking over the spaces cannot help since `i` never matches a
space), then the lazy group. -/
def scanTmplIncludesAux : Nat → List Char → List (List Char)
  | 0, _ => []
  | _, [] => []
  | fuel + 1, c :: cs =>
    if (['\x7b', '\x7b']).isPrefixOf (c :: cs) then
      if tmplInclPat.isPrefixOf ((cs.drop 1).dropWhile (fun x => x = ' ')) then
        match lazyTmpl (((cs.drop 1).dropWhile (fun x => x = ' ')).drop 9) with
        | some (g, rest) => g :: scanTmplIncludesAux fuel rest
        | none => scanTmplIncludesAux fuel cs
      else scanTmplIncludesAux fuel cs
    else scanTmplIncludesAux fuel cs

def scanTmplIncludes (l : List Char) : List (List Char) :=
  scanTmplIncludesAux (l.length + 1) l

/-!
## Title extraction (`DocumentMetadata._extract_markdown_metadata` /
`_extract_rst_metadata`)
-/

/-- Models `((l.dropWhile p).drop 1).length < l.length` for non-empty `l`:
the "skip to the next line" step of the multiline title search. -/
theorem skipLine_length (p : Char → Bool) (c : Char) (cs : List Char) :
    (((c :: cs).dropWhile p).drop 1).length < (c :: cs).length := by
  have h := length_dropWhile_le' p (c :: cs)
  simp only [List.length_drop, List.length_cons] at *
  omega

/-- Models `re.search(r'^#\s+(.*?)$', content, re.MULTILINE)`: the first line-start
position where `#` is followed by at least one whitespace character; the
greedy `\s+` eats the maximal whitespace run (which may cross newlines) and
the lazy group then runs to the next end of line.  Returns the raw group-1
(the caller strips it). -/
def findMdTitleAux : Nat → List Char → Option (List Char)
  | 0, _ => none
  | _, [] => none
  | fuel + 1, '#' :: c2 :: rest =>
    if pyIsSpace c2 then
      some (((c2 :: rest).dropWhile pyIsSpace).takeWhile (fun x => x ≠ '\n'))
    else findMdTitleAux fuel ((('#' :: c2 :: rest).dropWhile (fun x => x ≠ '\n')).drop 1)
  | fuel + 1, c :: cs =>
    findMdTitleAux fuel (((c :: cs).dropWhile (fun x => x ≠ '\n')).drop 1)

def findMdTitle (l : List Char) : Option (List Char) :=
  findMdTitleAux (l.length + 1) l

/-- Models `re.match(r'^[=\-]+$', line)`: a non-empty line consisting only of `=`
and `-` characters. -/
def underlineOnly (s : List Char) : Bool :=
  !s.isEmpty && s.all (fun c => c = '=' || c = '-')

/-- The per-pair condition of `_extract_rst_metadata` (lines 112–114 of the
source): underline-only next line, non-empty current line, and stripped
lengths exactly equal. -/
def rstCond (a b : List Char) : Bool :=
  underlineOnly b && !a.isEmpty && (pyStrip a).length == (pyStrip b).length

/-- Scan consecutive line pairs for the first one satisfying `cond` (the
shared shape of both RST title loops). -/
def pairScanBy (cond : List Char → List Char → Bool) :
    List (List Char) → Option (List Char)
  | a :: b :: rest =>
    if cond a b then some (pyStrip a) else pairScanBy cond (b :: rest)
  | _ => none

/-- The `i > 0` part of both RST title loops: the scan starts at the
second line. -/
def scanFromSecondLine (cond : List Char → List Char → Bool)
    (lines : List (List Char)) : Option (List Char) :=
  match lines with
  | [] => none
  | _ :: rest => pairScanBy cond rest

/-- RST title extraction of the Metadata Extractor: the loop requires
`i > 0 and i < len(lines) - 1`, so the very first line is never considered
as a title, and the underline may be the last line. -/
def findRstTitle (content : List Char) : Option (List Char) :=
  scanFromSecondLine rstCond (splitOnNl content)

/-!
## Reference extraction (`_extract_markdown_metadata`,
`_extract_rst_metadata`, `_extract_common_references`)
-/

def urlSchemes4 : List (List Char) :=
  ["http:".toList, "https:".toList, ['#'], "mailto:".toList]

def urlSchemes3 : List (List Char) :=
  ["http:".toList, "https:".toList, ['#']]

/-- Models `re.sub(r'#.*$', '', link)`: with no `re.MULTILINE` and a link that
contains no newline, this removes everything from the first `#` on. -/
def stripAnchor (l : List Char) : List Char := l.takeWhile (fun c => c ≠ '#')

/-- Models `re.sub(r'\.(md|rst)$', '', link)` (note: `.txt` is not stripped). -/
def dropMdRstExt (l : List Char) : List Char :=
  if (['.', 'm', 'd']).isSuffixOf l then l.take (l.length - 3)
  else if (['.', 'r', 's', 't']).isSuffixOf l then l.take (l.length - 4)
  else l

/-- Models `set.add`: the reference set is modelled as an insertion-ordered
duplicate-free list. -/
def insertRef (refs : List (List Char)) (r : List Char) : List (List Char) :=
  if refs.contains r then refs else refs ++ [r]

/-- Processing one extracted raw target: strip it, skip it when it starts
with one of the filtered schemes, otherwise normalize with `g` and add. -/
def refStep (cond : List Char → Bool) (g : List Char → List Char)
    (refs : List (List Char)) (raw : List Char) : List (List Char) :=
  if cond (pyStrip raw) then refs else insertRef refs (g (pyStrip raw))

/-- Markdown link references: strip, drop absolute/anchor/mailto targets,
strip the anchor fragment and a `.md`/`.rst` extension, add. -/
def addMdLinkRefs (content : List Char) (refs0 : List (List Char)) : List (List Char) :=
  (scanMdLinks content).foldl
    (refStep (startsWithAny urlSchemes4) (fun link => dropMdRstExt (stripAnchor link)))
    refs0

/-- Models `:doc:` role references: added verbatim (only stripped, never
filtered or normalized). -/
def addDocRoleRefs (content : List Char) (refs0 : List (List Char)) : List (List Char) :=
  (scanDocRoles content).foldl (refStep (fun _ => false) id) refs0

/-- RST hyperlink targets: strip, drop absolute/anchor/mailto targets, add
verbatim. -/
def addHyperlinkRefs (content : List Char) (refs0 : List (List Char)) : List (List Char) :=
  (scanRstHyperlinks content).foldl (refStep (startsWithAny urlSchemes4) id) refs0

/-- Include-directive targets (`_extract_common_references`): the three
patterns are scanned in order; targets are stripped, filtered against
`("http:", "https:", "#")` only, and added verbatim — no anchor or
extension stripping. -/
def addIncludeRefs (content : List Char) (refs0 : List (List Char)) : List (List Char) :=
  ((scanTmplIncludes content).foldl (refStep (startsWithAny urlSchemes3) id)
    ((scanJinjaIncludes content).foldl (refStep (startsWithAny urlSchemes3) id)
      ((scanRstIncludes content).foldl (refStep (startsWithAny urlSchemes3) id) refs0)))

/-!
## Paths and the filesystem model
-/

/-- Models `pathlib` stem/suffix of a file name: the suffix starts at the last dot,
provided that dot is neither the first nor the last character. -/
def pyStemSuffix (name : String) : String × String :=
  let cs := name.toList
  match cs.reverse.findIdx? (fun c => c = '.') with
  | some j =>
    let i := cs.length - 1 - j
    if 0 < i ∧ i < cs.length - 1 then (String.mk (cs.take i), String.mk (cs.drop i))
    else (name, "")
  | none => (name, "")

def pathName (p : List String) : String := (p.getLast?).getD ""

def pathStem (p : List String) : String := (pyStemSuffix (pathName p)).1

def pathSuffix (p : List String) : String := (pyStemSuffix (pathName p)).2

/-- Models `path.with_suffix(".html")`. -/
def withSuffixHtml (p : List String) : List String :=
  match p with
  | [] => []
  | _ => p.dropLast ++ [pathStem p ++ ".html"]

/-- Models `str(path)` (POSIX): components joined with `/`. -/
def strOfPath : List String → List Char
  | [] => []
  | [s] => s.toList
  | s :: rest => s.toList ++ '/' :: strOfPath rest

/-- Models `str(path.with_suffix(".html")).replace("\\", "/")` — the `url` field. -/
def urlOf (p : List String) : List Char := strOfPath (withSuffixHtml p)

/-- A file: a path and its contents; `data = none` models a file whose
`open`/`read` raises (permissions, undecodable bytes, …). -/
structure FSFile where
  path : List String
  data : Option (List Char)
deriving DecidableEq

/-- The filesystem: files (in traversal order) plus extra directories. -/
structure FS where
  files : List FSFile
  dirs : List (List String)
deriving DecidableEq

/-- Reading a file; `none` when it does not exist or reading raises. -/
def readFS (fs : FS) (p : List String) : Option (List Char) :=
  match fs.files.find? (fun f => f.path == p) with
  | some f => f.data
  | none => none

def isFileFS (fs : FS) (p : List String) : Bool :=
  (fs.files.find? (fun f => f.path == p)).isSome

def isDirFS (fs : FS) (d : List String) : Bool :=
  fs.dirs.any (fun x => d.isPrefixOf x) ||
    fs.files.any (fun f => d.isPrefixOf f.path && d.length < f.path.length)

def existsFS (fs : FS) (p : List String) : Bool := isFileFS fs p || isDirFS fs p

/-- The immediate-child component of `p` below directory `d`, if any. -/
def childName (d p : List String) : Option String :=
  if d.isPrefixOf p ∧ d.length < p.length then (p.drop d.length).head? else none

/-- Models `os.listdir(d)`: the distinct immediate children of `d`, in filesystem
order (the order is OS-dependent in Python; the model fixes it). -/
def listdirFS (fs : FS) (d : List String) : List String :=
  (((fs.files.map (fun f => f.path)) ++ fs.dirs).filterMap (childName d)).dedup

/-- Models `*{ext}` of the glob patterns: the file name ends with `ext`. -/
def extMatch (ext : String) (p : List String) : Bool :=
  ext.toList.isSuffixOf (pathName p).toList

/-- Models `d.glob(f"**/*{ext}")`: every file strictly below `d` whose name ends
with `ext`, in filesystem order. -/
def globFS (fs : FS) (d : List String) (ext : String) : List (List String) :=
  (fs.files.map (fun f => f.path)).filter
    (fun p => d.isPrefixOf p && d.length < p.length && extMatch ext p)

/-!
## `DocumentMetadata`
-/

structure DocumentMetadata where
  path : List String
  title : List Char
  category : String
  /-- the `section` attribute (`section` is a Lean keyword). -/
  sect : String
  priority : Int
  url : List Char
  references : List (List Char)
  is_index : Bool
deriving DecidableEq

/-- Title extraction dispatch on the file suffix (`_extract_metadata`):
the Markdown match is stripped at the use site; `.txt` files get no title
extraction. -/
def extractTitle (sfx : String) (content : List Char) : Option (List Char) :=
  if sfx == ".md" then (findMdTitle content).map pyStrip
  else if sfx == ".rst" then findRstTitle content
  else none

/-- Reference extraction dispatch: format-specific references first, then
the common include-directive references. -/
def extractRefs (sfx : String) (content : List Char) : List (List Char) :=
  let r1 :=
    if sfx == ".md" then addMdLinkRefs content []
    else if sfx == ".rst" then addHyperlinkRefs content (addDocRoleRefs content [])
    else []
  addIncludeRefs content r1

/-- Models `DocumentMetadata(path, category=…, section=…, priority=…)` as invoked
by the discovery engine (the `title` argument is always defaulted, so the
pre-extraction title is the filename-derived fallback).  Any read failure
leaves the defaults in place (`_extract_metadata` catches all exceptions). -/
def mkDocumentMetadata (fs : FS) (p : List String) (category sect : String)
    (priority : Int) : DocumentMetadata :=
  let stem := pathStem p
  let fallback := fallbackTitleChars stem.toList
  match readFS fs p with
  | none =>
    { path := p, title := fallback, category := category, sect := sect,
      priority := priority, url := urlOf p, references := [],
      is_index := (pyLowerS stem == "index") }
  | some content =>
    { path := p, title := (extractTitle (pathSuffix p) content).getD fallback,
      category := category, sect := sect, priority := priority, url := urlOf p,
      references := extractRefs (pathSuffix p) content,
      is_index := (pyLowerS stem == "index") }

/-!
## Priority (`_calculate_doc_priority`)
-/

def importantSections : List String := ["getting_started", "guides", "overview"]

/-- Models `_calculate_doc_priority`: base value by category, reductions
for important sections and index/README stems, a penalty of 2 per extra
path component relative to the docs dir, clamped to `[0, 100]`. -/
def calculateDocPriority (stem sect category : String)
    (pathParts docsDirParts : Nat) : Int :=
  let base0 : Int :=
    if category == "user" then 40
    else if category == "ai" then 60
    else if category == "auto" then 80
    else 50
  let base1 := if importantSections.contains sect then base0 - 10 else base0
  let base2 := if pyLowerS stem == "index" then base1 - 20 else base1
  let base3 := if pyLowerS stem == "readme" then base2 - 15 else base2
  let depth : Int := (pathParts : Int) - (docsDirParts : Int) - 1
  max 0 (min 100 (base3 + depth * 2))

/-!
## Discovery engine (`DocumentationDiscovery`)

The class is parametrised by `repo_root` and `docs_dir`; `doc_structure =
get_doc_structure(repo_root)` always contains the keys `user_docs`,
`auto_docs`, `ai_docs` at `repo_root/docs/<name>`, so the `.get` defaults
are never taken.
-/

def docExtensions : List String := [".md", ".rst", ".txt"]

/-- Models `any(p.startswith("_") for p in file_path.parts)`; the
single-character `startswith` is the first-character test. -/
def hasUnderscorePart (p : List String) : Bool :=
  p.any (fun s =>
    match s.toList with
    | c :: _ => c = '_'
    | [] => false)

def docsRootOf (repoRoot : List String) : List String := repoRoot ++ ["docs"]

def userDocsDirOf (repoRoot : List String) : List String :=
  repoRoot ++ ["docs", "user_docs"]

def autoDocsDirOf (repoRoot : List String) : List String :=
  repoRoot ++ ["docs", "auto_docs"]

def aiDocsDirOf (repoRoot : List String) : List String :=
  repoRoot ++ ["docs", "ai_docs"]

/-- One section directory's files: extension-major iteration of the glob,
skipping any path with an underscore-prefixed component, each file wrapped
in a `DocumentMetadata` with the computed priority (depth is measured
against `self.docs_dir`). -/
def discoverDirFiles (fs : FS) (sectionDir docsDir : List String)
    (category sect : String) : List DocumentMetadata :=
  docExtensions.flatMap (fun ext =>
    (globFS fs sectionDir ext).filterMap (fun p =>
      if hasUnderscorePart p then none
      else some (mkDocumentMetadata fs p category sect
        (calculateDocPriority (pathStem p) sect category p.length docsDir.length))))

/-- The paths produced by one section directory (the glob, filtered of
underscore-prefixed components), used to reason about `discoverDirFiles`. -/
def dirPathsOf (fs : FS) (sd : List String) : List (List String) :=
  docExtensions.flatMap (fun ext =>
    (globFS fs sd ext).filter (fun p => !hasUnderscorePart p))

/-- Models `_discover_user_docs`: iterate the entries of the user-docs directory,
keeping only subdirectories as sections.  (When `listdir` itself raises —
directory missing — the category contributes nothing; the early-exists
check makes that explicit.) -/
def discoverUserDocs (fs : FS) (userDocsDir docsDir : List String) :
    List DocumentMetadata :=
  if existsFS fs userDocsDir then
    (listdirFS fs userDocsDir).flatMap (fun sect =>
      if isDirFS fs (userDocsDir ++ [sect]) then
        discoverDirFiles fs (userDocsDir ++ [sect]) docsDir "user" sect
      else [])
  else []

/-- The fixed candidate auto-doc directories, in source order. -/
def autoDirsOf (docsDir autoDocsDir : List String) : List (List String) :=
  [autoDocsDir ++ ["api"], autoDocsDir ++ ["introspected"],
   autoDocsDir ++ ["extracted"], docsDir ++ ["autoapi"],
   docsDir ++ ["apidoc"], docsDir ++ ["reference"]]

/-- Models `_discover_auto_docs`: each existing candidate directory contributes its
files, with the section named after the directory. -/
def discoverAutoDocs (fs : FS) (docsDir autoDocsDir : List String) :
    List DocumentMetadata :=
  (autoDirsOf docsDir autoDocsDir).flatMap (fun sectionDir =>
    if existsFS fs sectionDir then
      discoverDirFiles fs sectionDir docsDir "auto" (pathName sectionDir)
    else [])

/-- Models `_discover_ai_docs`: same shape as the user category. -/
def discoverAiDocs (fs : FS) (aiDocsDir docsDir : List String) :
    List DocumentMetadata :=
  if existsFS fs aiDocsDir then
    (listdirFS fs aiDocsDir).flatMap (fun sect =>
      if isDirFS fs (aiDocsDir ++ [sect]) then
        discoverDirFiles fs (aiDocsDir ++ [sect]) docsDir "ai" sect
      else [])
  else []

/-- The values of `get_doc_structure(repo_root)` (`global_info.py`): the
docs root, the fixed subdirectories, and every category section directory
(`DOC_CATEGORIES`). -/
def docStructureDirs (repoRoot : List String) : List (List String) :=
  let docs := repoRoot ++ ["docs"]
  [docs, docs ++ ["_build"], docs ++ ["_static"], docs ++ ["_templates"],
   docs ++ ["user_docs"], docs ++ ["auto_docs"], docs ++ ["ai_docs"],
   docs ++ ["assets"],
   docs ++ ["user_docs", "getting_started"], docs ++ ["user_docs", "guides"],
   docs ++ ["user_docs", "concepts"], docs ++ ["user_docs", "reference"],
   docs ++ ["user_docs", "examples"], docs ++ ["user_docs", "faq"],
   docs ++ ["auto_docs", "api"], docs ++ ["auto_docs", "introspected"],
   docs ++ ["auto_docs", "extracted"],
   docs ++ ["ai_docs", "generated"], docs ++ ["ai_docs", "enhanced"],
   docs ++ ["ai_docs", "integrated"]]

/-- The commonly-ignored directories of `_identify_orphans`. -/
def ignoredDirsOf (docsDir : List String) : List (List String) :=
  [docsDir ++ ["_build"], docsDir ++ ["_static"], docsDir ++ ["_templates"],
   docsDir ++ ["venv"], docsDir ++ [".venv"]]

/-- Models `_identify_orphans`: glob the whole docs dir per extension; a file is
orphaned when it has no underscore-prefixed component, its `str` does not
start with the `str` of an ignored directory or of an *existing* structure
directory (note: **string**-prefix comparisons, exactly as the source), and
its derived URL is not already tracked. -/
def identifyOrphans (fs : FS) (repoRoot docsDir : List String)
    (tracked : List (List Char)) : List (List String) :=
  let allDocs := docExtensions.flatMap (fun ext => globFS fs docsDir ext)
  let structureDirs := (docStructureDirs repoRoot).filter (fun d => existsFS fs d)
  let ignored := ignoredDirsOf docsDir
  allDocs.filter (fun p =>
    !hasUnderscorePart p &&
    !(ignored.any (fun d => (strOfPath d).isPrefixOf (strOfPath p))) &&
    !(structureDirs.any (fun d => (strOfPath d).isPrefixOf (strOfPath p))) &&
    !(tracked.contains (urlOf p)))

/-- The `self.documents` dictionary; only the keys `"user"`, `"auto"`,
`"ai"` are ever created, in that order. -/
structure DocDict where
  user : List DocumentMetadata
  auto : List DocumentMetadata
  ai : List DocumentMetadata
deriving DecidableEq

/-- The mutable discovery state: `documents`, `orphaned_documents`,
`tracked_documents`.  (The per-instance `_file_content_cache` is keyed by
the orphan path and each orphan is analysed once per run, so it is modelled
inside `analyzeOrphanContent`.) -/
structure DiscoveryState where
  documents : DocDict
  orphaned : List (List String)
  tracked : List (List Char)
deriving DecidableEq

def emptyState : DiscoveryState := ⟨⟨[], [], []⟩, [], []⟩

/-- Models `_clear_discovery_state`: every collection is cleared. -/
def clearState (_s : DiscoveryState) : DiscoveryState := emptyState

/-- Models `discover_all`: clear, discover the three categories, identify orphans
(`_resolve_document_relations` computes nothing observable), return the
documents dictionary and the updated state. -/
def discoverAll (fs : FS) (repoRoot docsDir : List String)
    (s : DiscoveryState) : DocDict × DiscoveryState :=
  let s0 := clearState s
  let user := discoverUserDocs fs (userDocsDirOf repoRoot) docsDir
  let auto := discoverAutoDocs fs docsDir (autoDocsDirOf repoRoot)
  let ai := discoverAiDocs fs (aiDocsDirOf repoRoot) docsDir
  let docs : DocDict := ⟨user, auto, ai⟩
  let orphans := identifyOrphans fs repoRoot docsDir s0.tracked
  (docs, { documents := docs, orphaned := orphans, tracked := s0.tracked })

/-!
## Orphan analysis (`_analyze_orphan_content`)
-/

/-- The fixed section → keyword table, in source order. -/
def sectionPatternsTable : List (String × List (List Char)) :=
  [("getting_started",
    ["installation".toList, "quickstart".toList, "setup".toList,
     "introduction".toList, "overview".toList, "begin".toList]),
   ("user_guide",
    ["guide".toList, "how to".toList, "usage".toList, "tutorial".toList,
     "workflow".toList, "manual".toList, "instructions".toList]),
   ("concepts",
    ["concept".toList, "architecture".toList, "design".toList,
     "principles".toList, "theory".toList, "philosophy".toList,
     "model".toList]),
   ("reference",
    ["api".toList, "reference".toList, "class".toList, "function".toList,
     "method".toList, "parameter".toList, "attribute".toList]),
   ("examples",
    ["example".toList, "sample".toList, "demo".toList, "showcase".toList,
     "illustration".toList, "walkthrough".toList]),
   ("advanced",
    ["advanced".toList, "expert".toList, "internals".toList,
     "deep dive".toList, "contribute".toList, "extend".toList,
     "customize".toList])]

/-- Filename stage: every keyword contained in the lower-cased stem sets
`(section, 2)`, but only while `best_section == "reference" or
best_score < 2` — so a previous non-"reference" match is kept. -/
def filenameStage (stemLower : List Char) : String × Nat :=
  (sectionPatternsTable.flatMap (fun sp => sp.2.map (fun p => (sp.1, p)))).foldl
    (fun best sp =>
      if pyContainsSub sp.2 stemLower then
        (if best.1 == "reference" || best.2 < 2 then (sp.1, 2) else best)
      else best)
    ("reference", 0)

/-- Content-stage score of one section:
`sum(content.count(p) * (3 if p in content[:500] else 1) for p in patterns)`
— the 3× factor applies to *all* occurrences of a keyword as soon as the
keyword occurs anywhere in the first 500 characters. -/
def sectionScore (lowered : List Char) (patterns : List (List Char)) : Nat :=
  (patterns.map (fun p =>
    pyCount p lowered * (if pyContainsSub p (lowered.take 500) then 3 else 1))).sum

/-- One step of the content-stage fold: a strictly greater score replaces
the best candidate, so ties keep the earlier section. -/
def contentStep (lowered : List Char) (best : String × Nat)
    (sp : String × List (List Char)) : String × Nat :=
  if best.2 < sectionScore lowered sp.2 then (sp.1, sectionScore lowered sp.2)
  else best

/-- The content-stage fold over an arbitrary section table. -/
def contentStageOn (lowered : List Char)
    (table : List (String × List (List Char))) (best0 : String × Nat) :
    String × Nat :=
  table.foldl (contentStep lowered) best0

/-- Content stage fold over the section table: strictly greater scores win,
so ties keep the earlier section. -/
def contentStage (lowered : List Char) (best0 : String × Nat) : String × Nat :=
  contentStageOn lowered sectionPatternsTable best0

/-- Orphan Markdown title: the first line that starts with the literal
`"# "` (unlike the extractor's regex, a tab after `#` does not count). -/
def orphanMdTitleLines (lines : List (List Char)) : Option (List Char) :=
  (lines.find? (fun l => (['#', ' ']).isPrefixOf l)).map (fun l => pyStrip (l.drop 2))

/-- Orphan RST pair condition (line 650–651 of the source): underline-only
next line, non-blank stripped line, and
`len(line.strip()) >= len(next_line.strip()) * 0.8` — a one-sided
tolerance; `n * 0.8` is modelled exactly as the rational `4n/5` (the float
computation agrees at these magnitudes). -/
def orphanRstCond (a b : List Char) : Bool :=
  underlineOnly b && !(pyStrip a).isEmpty &&
    decide (4 * (pyStrip b).length ≤ 5 * (pyStrip a).length)

/-- Orphan RST title: like the extractor, the loop requires `i > 0`. -/
def orphanRstTitleLines (lines : List (List Char)) : Option (List Char) :=
  scanFromSecondLine orphanRstCond lines

/-- The title synthesised from (cached) content `c` by suffix. -/
def orphanTitleFrom (sfx : String) (c : List Char) (fallback : List Char) :
    List Char :=
  if sfx == ".md" then (orphanMdTitleLines (splitOnNl c)).getD fallback
  else if sfx == ".rst" then (orphanRstTitleLines (splitOnNl c)).getD fallback
  else fallback

/-- Models `_analyze_orphan_content(orphan, section_patterns)`, as a function of
the orphan's stem, suffix, and (optional) content.  Faithful to the
source's control flow, including its accidents:

* the content stage runs only when the filename stage scored `< 2`; it
  reads the file, **lower-cases it, and caches the lower-cased text**;
* the title stage then reuses the cache, so when the content stage ran the
  title heuristics are applied to the *lower-cased* content;
* when the filename stage scored 2, the local `content_key` was never
  assigned, so the title stage raises `NameError`, which is caught — the
  title is always the filename-derived fallback in that case;
* when reading fails, both stages fail softly and the fallback title is
  used. -/
def analyzeOrphanContent (stem : List Char) (sfx : String)
    (content? : Option (List Char)) : String × List Char :=
  if (filenameStage (pyLower stem)).2 < 2 then
    match content? with
    | some c =>
      ((contentStage (pyLower c) (filenameStage (pyLower stem))).1,
       orphanTitleFrom sfx (pyLower c) (fallbackTitleChars stem))
    | none => ((filenameStage (pyLower stem)).1, fallbackTitleChars stem)
  else ((filenameStage (pyLower stem)).1, fallbackTitleChars stem)

/-!
## TOC structure (`generate_toc_structure`, `_place_orphaned_documents`)
-/

structure TocItem where
  title : List Char
  url : List Char
  priority : Int
  category : String
deriving DecidableEq

structure TocSec where
  title : String
  items : List TocItem
deriving DecidableEq

abbrev Toc := List (String × TocSec)

/-- The fixed base sections, in insertion order. -/
def baseToc : Toc :=
  [("getting_started", ⟨"Getting Started", []⟩),
   ("user_guide", ⟨"User Guide", []⟩),
   ("concepts", ⟨"Concepts", []⟩),
   ("reference", ⟨"API Reference", []⟩),
   ("examples", ⟨"Examples", []⟩),
   ("advanced", ⟨"Advanced Topics", []⟩)]

/-- The fixed `section_mapping` dictionary. -/
def sectionMapping : List (String × String) :=
  [("getting_started", "getting_started"), ("installation", "getting_started"),
   ("quickstart", "getting_started"), ("guides", "user_guide"),
   ("howto", "user_guide"), ("tutorials", "user_guide"),
   ("concepts", "concepts"), ("architecture", "concepts"),
   ("design", "concepts"), ("reference", "reference"), ("api", "reference"),
   ("examples", "examples"), ("demos", "examples"), ("advanced", "advanced"),
   ("internals", "advanced"), ("contributing", "advanced"),
   ("faq", "user_guide")]

/-- Models `section_mapping.get(doc.section.lower(), "reference")`. -/
def lookupMapping (s : String) : String :=
  ((sectionMapping.find? (fun kv => kv.1 == s)).map (fun kv => kv.2)).getD "reference"

def tocHasKey (toc : Toc) (k : String) : Bool := toc.any (fun kv => kv.1 == k)

/-- Models `toc[k]["items"].append(it)` — dictionary keys are unique, so the first
matching entry is updated.  At every call site the key is present (for
documents it was just ensured; for orphans the analysis only returns
base-section names), so the identity fallback is unreachable. -/
def appendToSection (toc : Toc) (k : String) (it : TocItem) : Toc :=
  match toc with
  | [] => []
  | kv :: rest =>
    if kv.1 == k then (kv.1, ⟨kv.2.title, kv.2.items ++ [it]⟩) :: rest
    else kv :: appendToSection rest k it

/-- The `if target_section not in toc: toc[target_section] = {...}` branch
(kept for fidelity although every mapping target is a base section). -/
def ensureSection (toc : Toc) (k : String) : Toc :=
  if tocHasKey toc k then toc
  else toc ++ [(k, ⟨String.mk (pyTitleCase ((k.toList).map
    (fun c => if c = '_' then ' ' else c))), []⟩)]

/-- The TOC item built from a discovered document. -/
def docTocItem (d : DocumentMetadata) : TocItem :=
  ⟨d.title, d.url, d.priority, d.category⟩

/-- Models `tracked_documents.add`. -/
def addTracked (tracked : List (List Char)) (u : List Char) : List (List Char) :=
  if tracked.contains u then tracked else tracked ++ [u]

/-- Processing one discovered document in `generate_toc_structure`. -/
def addDocToToc (acc : Toc × List (List Char)) (d : DocumentMetadata) :
    Toc × List (List Char) :=
  let target := lookupMapping (pyLowerS d.sect)
  let toc := ensureSection acc.1 target
  (appendToSection toc target (docTocItem d), addTracked acc.2 d.url)

def addDocsToToc (acc : Toc × List (List Char)) (docs : List DocumentMetadata) :
    Toc × List (List Char) :=
  docs.foldl addDocToToc acc

/-- The orphan's URL: path relative to the docs dir (orphans always come
from a glob of the docs dir, so `relative_to` cannot raise), with a
`.md`/`.rst`/`.txt` ending replaced by `.html`. -/
def orphanUrl (docsDir : List String) (p : List String) : List Char :=
  let rel := strOfPath (p.drop docsDir.length)
  if (['.', 'm', 'd']).isSuffixOf rel then rel.take (rel.length - 3) ++ ".html".toList
  else if (['.', 'r', 's', 't']).isSuffixOf rel then
    rel.take (rel.length - 4) ++ ".html".toList
  else if (['.', 't', 'x', 't']).isSuffixOf rel then
    rel.take (rel.length - 4) ++ ".html".toList
  else rel

/-- One step of `_place_orphaned_documents`: skip non-files and
already-tracked URLs; otherwise analyse, append a fixed-priority
`"orphan"` item, and track. -/
def placeOrphanStep (fs : FS) (docsDir : List String)
    (acc : Toc × List (List Char)) (orphan : List String) :
    Toc × List (List Char) :=
  if !(isFileFS fs orphan) then acc
  else if acc.2.contains (orphanUrl docsDir orphan) then acc
  else
    (appendToSection acc.1
       (analyzeOrphanContent (pathStem orphan).toList (pathSuffix orphan)
         (readFS fs orphan)).1
       ⟨(analyzeOrphanContent (pathStem orphan).toList (pathSuffix orphan)
         (readFS fs orphan)).2,
        orphanUrl docsDir orphan, 90, "orphan"⟩,
     addTracked acc.2 (orphanUrl docsDir orphan))

/-- Models `_place_orphaned_documents`. -/
def placeOrphans (fs : FS) (docsDir : List String)
    (acc : Toc × List (List Char)) (orphans : List (List String)) :
    Toc × List (List Char) :=
  orphans.foldl (placeOrphanStep fs docsDir) acc

/-- Stable ascending insertion by `priority`: an element is inserted before
the first strictly-greater element, i.e. after all earlier elements with an
equal priority — the behaviour of Python's stable `sorted`. -/
def insertItem (x : TocItem) : List TocItem → List TocItem
  | [] => [x]
  | y :: ys => if x.priority ≤ y.priority then x :: y :: ys else y :: insertItem x ys

def sortItems : List TocItem → List TocItem
  | [] => []
  | x :: xs => insertItem x (sortItems xs)

/-- The TOC and tracked set before the final sort: documents by category
(dictionary insertion order: user, auto, ai), then orphan placement. -/
def buildToc (fs : FS) (docsDir : List String) (s : DiscoveryState) :
    Toc × List (List Char) :=
  placeOrphans fs docsDir
    (addDocsToToc
      (addDocsToToc (addDocsToToc (baseToc, s.tracked) s.documents.user)
        s.documents.auto)
      s.documents.ai)
    s.orphaned

/-- Models `generate_toc_structure`: documents by category (dictionary
insertion order: user, auto, ai), then orphan placement, then the
per-section stable sort by priority. -/
def generateTocStructure (fs : FS) (docsDir : List String)
    (s : DiscoveryState) : Toc × DiscoveryState :=
  ((buildToc fs docsDir s).1.map
    (fun kv => (kv.1, ⟨kv.2.title, sortItems kv.2.items⟩)),
   { s with tracked := (buildToc fs docsDir s).2 })

/-- All items of the TOC, section-major. -/
def allTocItems (toc : Toc) : List TocItem := toc.flatMap (fun kv => kv.2.items)

/-!
## Module import (claim C2)

`source_discovery.py` line 20 imports exactly these names from `typing`;
the class body of `DocumentationDiscovery` is executed at import time and
evaluates the return annotation `Tuple[str, str]` of
`_analyze_orphan_content` (line 577).  The file has no
`from __future__ import annotations` and the package requires Python ≥ 3.8,
where annotations are evaluated eagerly at function-definition time, so
the import succeeds only if the name `Tuple` resolves in the module globals
or the builtins.
-/

/-- Models `from typing import Dict, List, Set, Optional, Any, Union` (line 20). -/
def typingImportedNames : List String :=
  ["Dict", "List", "Set", "Optional", "Any", "Union"]

/-- Every module-global name bound before line 577 executes: the imports of
lines 15–24, the type aliases of lines 27–33, the logger, and the
`DocumentMetadata` class. -/
def sourceDiscoveryGlobalNames : List String :=
  ["os", "re", "logging", "Path", "defaultdict"] ++ typingImportedNames ++
  ["get_doc_structure", "get_repo_root", "get_docs_dir",
   "PathStr", "CategoryStr", "SectionStr", "TocItem", "TocSection",
   "TocStructure", "DocDict", "logger", "DocumentMetadata"]

/-- A representative list of Python builtins (no Python 3 version has a
builtin named `Tuple`; the builtin tuple type is `tuple`). -/
def pythonBuiltinNames : List String :=
  ["abs", "any", "all", "bool", "dict", "enumerate", "float", "int",
   "isinstance", "len", "list", "max", "min", "open", "print", "range",
   "set", "sorted", "str", "sum", "tuple", "type", "zip"]

/-- The head name of the return annotation at line 577. -/
def analyzeOrphanReturnAnnotation : String := "Tuple"

/-- Python name resolution for an annotation evaluated in the class body:
module globals, then builtins. -/
def resolvesAtImport (n : String) : Bool :=
  sourceDiscoveryGlobalNames.contains n || pythonBuiltinNames.contains n

/-- Importing the module: executing the class body evaluates the
annotation; an unresolvable name raises `NameError` out of the import. -/
def importSourceDiscovery : Except String Unit :=
  if resolvesAtImport analyzeOrphanReturnAnnotation then Except.ok ()
  else Except.error "NameError"

/-!
## Spec-following comparison definitions

These two definitions follow the *claim's* wording (not the source); they
exist only to be compared against the source-derived definitions above.
-/

/-- Modelled from the spec (claim C3's reading of the content-stage score):
"each individual occurrence located within the first 500 characters
contributes 3 and each occurrence after character 500 contributes 1". -/
def claimedSectionScore (lowered : List Char) (patterns : List (List Char)) : Nat :=
  (patterns.map (fun p =>
    3 * pyCount p (lowered.take 500) +
      (pyCount p lowered - pyCount p (lowered.take 500)))).sum

/-- The content-stage fold with the claimed per-occurrence score. -/
def claimedContentStage (lowered : List Char) (best0 : String × Nat) : String × Nat :=
  sectionPatternsTable.foldl
    (fun best sp =>
      let sc := claimedSectionScore lowered sp.2
      if best.2 < sc then (sp.1, sc) else best)
    best0

/-- Modelled from the spec (claim C5's reading of RST title extraction):
the first line — including the very first line of the file — followed by an
underline-only line whose stripped length is within an 80% tolerance of the
title's stripped length (`0.8·a ≤ b` and `0.8·b ≤ a`, modelled exactly as
rationals). -/
def claimedRstCond (a b : List Char) : Bool :=
  underlineOnly b && !a.isEmpty &&
    decide (4 * (pyStrip a).length ≤ 5 * (pyStrip b).length) &&
    decide (4 * (pyStrip b).length ≤ 5 * (pyStrip a).length)

def claimedRstTitle (content : List Char) : Option (List Char) :=
  pairScanBy claimedRstCond (splitOnNl content)

/-!
## Lemmas about the stable sort
-/

theorem insertItem_perm (x : TocItem) (l : List TocItem) :
    List.Perm (insertItem x l) (x :: l) := by
  induction l with
  | nil => simp [insertItem]
  | cons y ys ih =>
    simp only [insertItem]
    split
    · exact List.Perm.refl _
    · exact (ih.cons y).trans (List.Perm.swap x y ys)

theorem sortItems_perm (l : List TocItem) : List.Perm (sortItems l) l := by
  induction l with
  | nil => simp [sortItems]
  | cons x xs ih =>
    simp only [sortItems]
    exact ((insertItem_perm x (sortItems xs)).trans (ih.cons x))

theorem chain'_insertItem (x : TocItem) (l : List TocItem)
    (h : List.Chain' (fun a b => a.priority ≤ b.priority) l) :
    List.Chain' (fun a b => a.priority ≤ b.priority) (insertItem x l) := by
  induction l with
  | nil => simp [insertItem]
  | cons y ys ih =>
    simp only [insertItem]
    split
    · rename_i hxy
      exact List.chain'_cons.mpr ⟨hxy, h⟩
    · rename_i hxy
      have hys := List.Chain'.tail h
      have ihh := ih hys
      cases ys with
      | nil =>
        simp only [insertItem]
        exact List.chain'_cons.mpr ⟨by omega, List.chain'_singleton x⟩
      | cons z zs =>
        simp only [insertItem] at ihh ⊢
        split
        · rename_i hxz
          exact List.chain'_cons.mpr ⟨by omega,
            List.chain'_cons.mpr ⟨hxz, List.Chain'.tail h⟩⟩
        · rename_i hxz
          simp only [if_neg hxz] at ihh
          exact List.chain'_cons.mpr ⟨(List.chain'_cons.mp h).1, ihh⟩

theorem sortItems_chain' (l : List TocItem) :
    List.Chain' (fun a b => a.priority ≤ b.priority) (sortItems l) := by
  induction l with
  | nil => simp [sortItems]
  | cons x xs ih => exact chain'_insertItem x (sortItems xs) ih

theorem insertItem_filter (x : TocItem) (l : List TocItem) (q : Int) :
    (insertItem x l).filter (fun z => z.priority == q) =
      ((x :: l).filter (fun z => z.priority == q)) := by
  induction l with
  | nil => rfl
  | cons y ys ih =>
    simp only [insertItem]
    split
    · rfl
    · rename_i hxy
      by_cases hy : y.priority = q
      · have hx : ¬ x.priority = q := by omega
        simp [List.filter_cons, hy, hx, ih, beq_iff_eq]
      · by_cases hx : x.priority = q
        · simp [List.filter_cons, hy, hx, ih, beq_iff_eq]
        · simp [List.filter_cons, hy, hx, ih, beq_iff_eq]

theorem sortItems_filter (l : List TocItem) (q : Int) :
    (sortItems l).filter (fun z => z.priority == q) =
      l.filter (fun z => z.priority == q) := by
  induction l with
  | nil => rfl
  | cons x xs ih =>
    simp only [sortItems]
    rw [insertItem_filter]
    by_cases hx : x.priority = q <;>
      simp [List.filter_cons, hx, ih, beq_iff_eq]

/-!
## Lemmas about the TOC structure
-/

theorem allTocItems_cons (kv : String × TocSec) (rest : Toc) :
    allTocItems (kv :: rest) = kv.2.items ++ allTocItems rest := rfl

theorem allTocItems_appendToSection_perm (toc : Toc) (k : String) (it : TocItem)
    (hk : tocHasKey toc k = true) :
    List.Perm (allTocItems (appendToSection toc k it)) (allTocItems toc ++ [it]) := by
  induction toc with
  | nil => simp [tocHasKey] at hk
  | cons kv rest ih =>
    simp only [appendToSection]
    split
    · rename_i hkv
      show List.Perm ((kv.2.items ++ [it]) ++ allTocItems rest)
        ((kv.2.items ++ allTocItems rest) ++ [it])
      rw [List.append_assoc, List.append_assoc]
      exact List.Perm.append_left kv.2.items List.perm_append_comm
    · rename_i hkv
      have hk' : tocHasKey rest k = true := by
        simpa [tocHasKey, hkv] using hk
      show List.Perm (kv.2.items ++ allTocItems (appendToSection rest k it))
        ((kv.2.items ++ allTocItems rest) ++ [it])
      rw [List.append_assoc]
      exact List.Perm.append_left kv.2.items (ih hk')

theorem mem_allTocItems_appendToSection {it x : TocItem} {toc : Toc} {k : String}
    (h : it ∈ allTocItems (appendToSection toc k x)) :
    it ∈ allTocItems toc ∨ it = x := by
  induction toc with
  | nil => simp [appendToSection, allTocItems] at h
  | cons kv rest ih =>
    simp only [appendToSection] at h
    split at h
    · simp only [allTocItems_cons, List.mem_append, List.mem_singleton] at h ⊢
      tauto
    · simp only [allTocItems_cons, List.mem_append] at h ⊢
      rcases h with h | h
      · tauto
      · rcases ih h with h | h <;> tauto

theorem allTocItems_ensureSection (toc : Toc) (k : String) :
    allTocItems (ensureSection toc k) = allTocItems toc := by
  unfold ensureSection
  split
  · rfl
  · simp [allTocItems]

theorem tocHasKey_ensureSection (toc : Toc) (k : String) :
    tocHasKey (ensureSection toc k) k = true := by
  unfold ensureSection
  split
  · assumption
  · simp [tocHasKey]

theorem addDocToToc_perm (acc : Toc × List (List Char)) (d : DocumentMetadata) :
    List.Perm (allTocItems (addDocToToc acc d).1)
      (allTocItems acc.1 ++ [docTocItem d]) := by
  unfold addDocToToc
  have h1 := tocHasKey_ensureSection acc.1 (lookupMapping (pyLowerS d.sect))
  have h2 := allTocItems_appendToSection_perm
    (ensureSection acc.1 (lookupMapping (pyLowerS d.sect)))
    (lookupMapping (pyLowerS d.sect)) (docTocItem d) h1
  rw [allTocItems_ensureSection] at h2
  exact h2

theorem addDocsToToc_perm (acc : Toc × List (List Char)) (docs : List DocumentMetadata) :
    List.Perm (allTocItems (addDocsToToc acc docs).1)
      (allTocItems acc.1 ++ docs.map docTocItem) := by
  induction docs generalizing acc with
  | nil => simp [addDocsToToc]
  | cons d ds ih =>
    show List.Perm (allTocItems (addDocsToToc (addDocToToc acc d) ds).1) _
    have h1 := ih (addDocToToc acc d)
    have h2 := List.Perm.append_right (ds.map docTocItem) (addDocToToc_perm acc d)
    have h3 := h1.trans h2
    simpa [List.append_assoc] using h3

theorem mem_placeOrphanStep {it : TocItem} (fs : FS) (docsDir : List String)
    (acc : Toc × List (List Char)) (o : List String)
    (h : it ∈ allTocItems (placeOrphanStep fs docsDir acc o).1) :
    it ∈ allTocItems acc.1 ∨ (it.priority = 90 ∧ it.category = "orphan") := by
  unfold placeOrphanStep at h
  split at h
  · exact Or.inl h
  · split at h
    · exact Or.inl h
    · rcases mem_allTocItems_appendToSection h with h' | h'
      · exact Or.inl h'
      · exact Or.inr (by rw [h']; exact ⟨rfl, rfl⟩)

theorem mem_placeOrphans {it : TocItem} (fs : FS) (docsDir : List String)
    (acc : Toc × List (List Char)) (orphans : List (List String))
    (h : it ∈ allTocItems (placeOrphans fs docsDir acc orphans).1) :
    it ∈ allTocItems acc.1 ∨ (it.priority = 90 ∧ it.category = "orphan") := by
  induction orphans generalizing acc with
  | nil => exact Or.inl h
  | cons o os ih =>
    have h' : it ∈ allTocItems
        (placeOrphans fs docsDir (placeOrphanStep fs docsDir acc o) os).1 := h
    rcases ih _ h' with h'' | h''
    · exact mem_placeOrphanStep fs docsDir acc o h''
    · exact Or.inr h''

theorem allTocItems_sortStep_perm (toc : Toc) :
    List.Perm
      (allTocItems (toc.map (fun kv => (kv.1, ⟨kv.2.title, sortItems kv.2.items⟩))))
      (allTocItems toc) := by
  induction toc with
  | nil => simp [allTocItems]
  | cons kv rest ih =>
    simp only [List.map_cons]
    rw [allTocItems_cons, allTocItems_cons]
    exact List.Perm.append (sortItems_perm kv.2.items) ih

/-!
## The discovery lists carry their category
-/

theorem mkDocumentMetadata_category (fs : FS) (p : List String)
    (c s : String) (pr : Int) : (mkDocumentMetadata fs p c s pr).category = c := by
  unfold mkDocumentMetadata
  cases readFS fs p <;> rfl

theorem mem_discoverDirFiles_category {d : DocumentMetadata} {fs : FS}
    {sd dd : List String} {c s : String}
    (h : d ∈ discoverDirFiles fs sd dd c s) : d.category = c := by
  unfold discoverDirFiles at h
  rcases List.mem_flatMap.mp h with ⟨ext, _, hmem⟩
  rcases List.mem_filterMap.mp hmem with ⟨p, _, hp⟩
  split at hp
  · exact absurd hp (by simp)
  · simp only [Option.some.injEq] at hp
    rw [← hp]
    exact mkDocumentMetadata_category fs p c s _

theorem mem_discoverUserDocs_category {d : DocumentMetadata} {fs : FS}
    {ud dd : List String} (h : d ∈ discoverUserDocs fs ud dd) :
    d.category = "user" := by
  unfold discoverUserDocs at h
  split at h
  · rcases List.mem_flatMap.mp h with ⟨sect, _, hmem⟩
    split at hmem
    · exact mem_discoverDirFiles_category hmem
    · simp at hmem
  · simp at h

theorem mem_discoverAutoDocs_category {d : DocumentMetadata} {fs : FS}
    {dd ad : List String} (h : d ∈ discoverAutoDocs fs dd ad) :
    d.category = "auto" := by
  unfold discoverAutoDocs at h
  rcases List.mem_flatMap.mp h with ⟨sd, _, hmem⟩
  split at hmem
  · exact mem_discoverDirFiles_category hmem
  · simp at hmem

theorem mem_discoverAiDocs_category {d : DocumentMetadata} {fs : FS}
    {ad dd : List String} (h : d ∈ discoverAiDocs fs ad dd) :
    d.category = "ai" := by
  unfold discoverAiDocs at h
  split at h
  · rcases List.mem_flatMap.mp h with ⟨sect, _, hmem⟩
    split at hmem
    · exact mem_discoverDirFiles_category hmem
    · simp at hmem
  · simp at h

/-!
## Concrete fixtures used by the counterexamples and witnesses
-/

/-- A repository whose only documentation file sits directly inside the
`user_docs` structure directory (not in a section subdirectory). -/
def fsC1 : FS :=
  ⟨[⟨["repo", "docs", "user_docs", "readme.md"], some ("# Dropped\n".toList)⟩], []⟩

/-- Content with "api" once inside and once after the first 500 characters,
and "example" five times after the first 500 characters. -/
def cexC3 : List Char :=
  "api".toList ++ List.replicate 500 'z' ++
    " api example example example example example".toList

/-- A Markdown file whose only reference comes from an include directive. -/
def fsC4 : FS := ⟨[⟨["docs", "inc.md"], some (".. include:: chunk.rst".toList)⟩], []⟩

/-- An RST document whose very first line is an exactly-underlined title. -/
def cexC5 : List Char := "Title\n=====\nbody".toList

def fsC5 : FS := ⟨[⟨["docs", "t.rst"], some cexC5⟩], []⟩

/-- An orphan Markdown document with a heading and a content-stage keyword. -/
def cexC6 : List Char := "# Getting Started\nquickstart tips\n".toList

/-- A file that exists but cannot be read (used by the C10 witness). -/
def fsC10 : FS := ⟨[⟨["docs", "bad.md"], none⟩], []⟩

/-!
## Claim theorems
-/

/-- Claim C2 (confirmed): importing `source_discovery` raises `NameError`
before any discovery operation is reachable — the return annotation
`Tuple[str, str]` of `_analyze_orphan_content` is evaluated while the class
body executes at import time, but `Tuple` is neither among the names the
module imports from `typing` nor a builtin, so it does not resolve. -/
theorem c2_import_fails :
    importSourceDiscovery = Except.error "NameError" ∧
    resolvesAtImport analyzeOrphanReturnAnnotation = false ∧
    typingImportedNames.contains "Tuple" = false := by
  refine ⟨rfl, by decide, by decide⟩

/-- Claim C8 (confirmed): `discover_all` first clears all discovery state,
so its result does not depend on the incoming state at all, and running it
twice over an unchanged filesystem yields an identical corpus (same
records: paths, titles, references, priorities). -/
theorem c8_discovery_idempotent (fs : FS) (repoRoot docsDir : List String)
    (s1 s2 : DiscoveryState) :
    discoverAll fs repoRoot docsDir s1 = discoverAll fs repoRoot docsDir s2 ∧
    (discoverAll fs repoRoot docsDir
      (discoverAll fs repoRoot docsDir s1).2).1 =
      (discoverAll fs repoRoot docsDir s1).1 :=
  ⟨rfl, rfl⟩

/-- Claim C10 (confirmed): when reading the file fails (nonexistent,
unreadable, or undecodable), constructing a `DocumentMetadata` never
propagates the failure; the record is returned with its default fields —
the filename-derived fallback title, empty references, and the url and
`is_index` flag that are computed from the path alone. -/
theorem c10_extraction_never_fatal (fs : FS) (p : List String)
    (category sect : String) (priority : Int) (h : readFS fs p = none) :
    mkDocumentMetadata fs p category sect priority =
      { path := p, title := fallbackTitleChars (pathStem p).toList,
        category := category, sect := sect, priority := priority,
        url := urlOf p, references := [],
        is_index := (pyLowerS (pathStem p) == "index") } := by
  unfold mkDocumentMetadata
  rw [h]

/-- Witness for C10 at a concrete unreadable file. -/
theorem c10_extraction_never_fatal_witness :
    readFS fsC10 ["docs", "bad.md"] = none ∧
    mkDocumentMetadata fsC10 ["docs", "bad.md"] "user" "guides" 40 =
      { path := ["docs", "bad.md"], title := "Bad".toList, category := "user",
        sect := "guides", priority := 40, url := "docs/bad.html".toList,
        references := [], is_index := false } := by
  refine ⟨rfl, ?_⟩
  rw [c10_extraction_never_fatal fsC10 ["docs", "bad.md"] "user" "guides" 40 rfl]
  decide

/-- Claim C1 counterexample: `repo/docs/user_docs/readme.md` is a
documentation file under the documentation root by the claim's own
criteria — the docs-root glob returns it, it has no underscore-prefixed
component, and it is not under an ignored directory — yet after
`discover_all` it is in none of the categories {user, auto, ai} (it lies
directly in the `user_docs` structure directory, which only sections of are
traversed), it is not an orphan either (its string path starts with the
existing structure directory `repo/docs`), and the final TOC contains no
item at all: the file is silently dropped, refuting both halves of the
partition claim. -/
theorem c1_partition_counterexample :
    (["repo", "docs", "user_docs", "readme.md"] ∈
      globFS fsC1 ["repo", "docs"] ".md") ∧
    hasUnderscorePart ["repo", "docs", "user_docs", "readme.md"] = false ∧
    ((ignoredDirsOf ["repo", "docs"]).any (fun d =>
      (strOfPath d).isPrefixOf
        (strOfPath ["repo", "docs", "user_docs", "readme.md"]))) = false ∧
    (discoverAll fsC1 ["repo"] ["repo", "docs"] emptyState).1 = ⟨[], [], []⟩ ∧
    (discoverAll fsC1 ["repo"] ["repo", "docs"] emptyState).2.orphaned = [] ∧
    allTocItems (generateTocStructure fsC1 ["repo", "docs"]
      (discoverAll fsC1 ["repo"] ["repo", "docs"] emptyState).2).1 = [] := by
  refine ⟨by decide, by decide, by decide, by decide, by decide, by decide⟩

set_option maxHeartbeats 3000000 in
/-- Claim C3 counterexample: on `cexC3` (one "api" inside and one after the
first 500 characters, five "example" after), the code's per-keyword
weighting gives the reference section 2·3 = 6 (the claimed per-occurrence
weighting would give 3+1 = 4), so the code places the orphan in
"reference" while the claimed scoring would pick "examples" (score 5). -/
theorem c3_content_score_counterexample :
    (sectionPatternsTable.map (fun sp =>
      (sp.1, sectionScore (pyLower cexC3) sp.2,
        claimedSectionScore (pyLower cexC3) sp.2))) =
      [("getting_started", 0, 0), ("user_guide", 0, 0), ("concepts", 0, 0),
       ("reference", 6, 4), ("examples", 5, 5), ("advanced", 0, 0)] ∧
    (analyzeOrphanContent "notes".toList ".md" (some cexC3)).1 = "reference" ∧
    (claimedContentStage (pyLower cexC3) ("reference", 0)).1 = "examples" := by
  refine ⟨by decide, by decide, by decide⟩

/-- Claim C4 counterexample: the include-directive reference of a Markdown
file is added verbatim — `.. include:: chunk.rst` yields the reference
`"chunk.rst"`, not the extension-stripped `"chunk"` the claim's "every
extracted reference is normalized" would require. -/
theorem c4_reference_normalization_counterexample :
    (mkDocumentMetadata fsC4 ["docs", "inc.md"] "user" "guides" 50).references =
      ["chunk.rst".toList] ∧
    "chunk".toList ∉
      (mkDocumentMetadata fsC4 ["docs", "inc.md"] "user" "guides" 50).references := by
  refine ⟨by decide, by decide⟩

/-- Claim C5 counterexample: on `"Title\n=====\nbody"` the first line is an
exactly-underlined title, well within any 80% tolerance, so the claim says
the extracted title is "Title"; the extractor returns no title (its loop
skips index 0), and the resulting record falls back to the
filename-derived title "T". -/
theorem c5_rst_title_counterexample :
    claimedRstTitle cexC5 = some ("Title".toList) ∧
    findRstTitle cexC5 = none ∧
    (mkDocumentMetadata fsC5 ["docs", "t.rst"] "user" "guides" 50).title =
      "T".toList := by
  refine ⟨by decide, by decide, by decide⟩

/-- Claim C6 counterexample: for the orphan `notes.md` with content
`cexC6`, the filename stage fails, the content stage runs and caches the
lower-cased content, and the synthesised title is the heading of the
*lower-cased* text — "getting started" — while the Metadata Extractor's
heuristic on the original content yields "Getting Started". -/
theorem c6_orphan_title_counterexample :
    (analyzeOrphanContent "notes".toList ".md" (some cexC6)).2 =
      "getting started".toList ∧
    (findMdTitle cexC6).map pyStrip = some ("Getting Started".toList) ∧
    "getting started".toList ≠ "Getting Started".toList := by
  refine ⟨by decide, by decide, by decide⟩

theorem clamp_mono (x y : Int) (h : x ≤ y) :
    max 0 (min 100 x) ≤ max 0 (min 100 y) := by omega

set_option maxHeartbeats 2000000 in
theorem priority_range (stem sect category : String) (a b : Nat) :
    0 ≤ calculateDocPriority stem sect category a b ∧
    calculateDocPriority stem sect category a b ≤ 100 := by
  unfold calculateDocPriority
  dsimp only
  constructor <;> omega

set_option maxHeartbeats 2000000 in
theorem priority_user_ai (stem sect : String) (a b : Nat) :
    calculateDocPriority stem sect "user" a b ≤
      calculateDocPriority stem sect "ai" a b := by
  unfold calculateDocPriority
  dsimp only
  apply clamp_mono
  rw [show (("user" : String) == "user") = true from rfl,
    show (("ai" : String) == "user") = false from rfl,
    show (("ai" : String) == "ai") = true from rfl]
  simp only [if_true, if_false]
  split_ifs <;> omega

set_option maxHeartbeats 2000000 in
theorem priority_ai_auto (stem sect : String) (a b : Nat) :
    calculateDocPriority stem sect "ai" a b ≤
      calculateDocPriority stem sect "auto" a b := by
  unfold calculateDocPriority
  dsimp only
  apply clamp_mono
  rw [show (("ai" : String) == "user") = false from rfl,
    show (("ai" : String) == "ai") = true from rfl,
    show (("auto" : String) == "user") = false from rfl,
    show (("auto" : String) == "ai") = false from rfl,
    show (("auto" : String) == "auto") = true from rfl]
  simp only [if_true, if_false]
  split_ifs <;> omega

set_option maxHeartbeats 2000000 in
theorem priority_index_min (stem sect category : String) (a b : Nat) :
    calculateDocPriority "index" sect category a b ≤
      calculateDocPriority stem sect category a b := by
  unfold calculateDocPriority
  dsimp only
  apply clamp_mono
  rw [show (pyLowerS "index" == "index") = true from rfl,
    show (pyLowerS "index" == "readme") = false from rfl]
  simp only [if_true, if_false]
  split_ifs <;> first | omega | simp_all [beq_iff_eq]

set_option maxHeartbeats 2000000 in
theorem priority_readme_min (stem sect category : String) (a b : Nat)
    (h : pyLowerS stem ≠ "index") :
    calculateDocPriority "readme" sect category a b ≤
      calculateDocPriority stem sect category a b := by
  unfold calculateDocPriority
  dsimp only
  apply clamp_mono
  rw [show (pyLowerS "readme" == "index") = false from rfl,
    show (pyLowerS "readme" == "readme") = true from rfl]
  simp only [if_true, if_false]
  split_ifs <;> first | omega | simp_all [beq_iff_eq]

set_option maxHeartbeats 2000000 in
theorem priority_depth_mono (stem sect category : String) (a a' b : Nat)
    (h : a ≤ a') :
    calculateDocPriority stem sect category a b ≤
      calculateDocPriority stem sect category a' b := by
  unfold calculateDocPriority
  dsimp only
  apply clamp_mono
  split_ifs <;> omega

set_option maxHeartbeats 2000000 in
theorem priority_important_sect (stem sect sect' category : String) (a b : Nat)
    (h : importantSections.contains sect = true) :
    calculateDocPriority stem sect category a b ≤
      calculateDocPriority stem sect' category a b := by
  unfold calculateDocPriority
  dsimp only
  apply clamp_mono
  rw [if_pos h]
  split_ifs <;> omega

/-- Claim C7 (confirmed): the computed priority always lies in `[0, 100]`;
pointwise in every other argument, the user category sorts before ai and ai
before auto; an "index" stem never sorts after any other stem and a
"readme" stem never sorts after a non-index stem; priority is monotone in
the path-component count (deeper paths sort later); and an important
section never sorts after any other section. -/
theorem c7_priority_properties (stem sect category : String) (a b : Nat) :
    (0 ≤ calculateDocPriority stem sect category a b ∧
      calculateDocPriority stem sect category a b ≤ 100) ∧
    (calculateDocPriority stem sect "user" a b ≤
        calculateDocPriority stem sect "ai" a b ∧
      calculateDocPriority stem sect "ai" a b ≤
        calculateDocPriority stem sect "auto" a b) ∧
    calculateDocPriority "index" sect category a b ≤
      calculateDocPriority stem sect category a b ∧
    (pyLowerS stem ≠ "index" →
      calculateDocPriority "readme" sect category a b ≤
        calculateDocPriority stem sect category a b) ∧
    (∀ a' : Nat, a ≤ a' →
      calculateDocPriority stem sect category a b ≤
        calculateDocPriority stem sect category a' b) ∧
    (importantSections.contains sect = true →
      ∀ sect' : String, calculateDocPriority stem sect category a b ≤
        calculateDocPriority stem sect' category a b) :=
  ⟨priority_range stem sect category a b,
   ⟨priority_user_ai stem sect a b, priority_ai_auto stem sect a b⟩,
   priority_index_min stem sect category a b,
   fun h => priority_readme_min stem sect category a b h,
   fun a' h => priority_depth_mono stem sect category a a' b h,
   fun h sect' => priority_important_sect stem sect sect' category a b h⟩

/-- Every item of the pre-sort TOC is either a discovered document's item
or an orphan item with fixed priority 90. -/
theorem mem_buildToc_cases {it : TocItem} (fs : FS) (docsDir : List String)
    (s : DiscoveryState)
    (h : it ∈ allTocItems (buildToc fs docsDir s).1) :
    (∃ d, d ∈ (s.documents.user ++ s.documents.auto ++ s.documents.ai) ∧
      it = docTocItem d) ∨
    (it.priority = 90 ∧ it.category = "orphan") := by
  unfold buildToc at h
  rcases mem_placeOrphans _ _ _ _ h with h1 | h1
  · have p3 := addDocsToToc_perm
      (addDocsToToc (addDocsToToc (baseToc, s.tracked) s.documents.user)
        s.documents.auto) s.documents.ai
    have h2 := p3.mem_iff.mp h1
    rcases List.mem_append.mp h2 with h3 | h3
    · have p2 := addDocsToToc_perm
        (addDocsToToc (baseToc, s.tracked) s.documents.user) s.documents.auto
      have h4 := p2.mem_iff.mp h3
      rcases List.mem_append.mp h4 with h5 | h5
      · have p1 := addDocsToToc_perm (baseToc, s.tracked) s.documents.user
        have h6 := p1.mem_iff.mp h5
        rcases List.mem_append.mp h6 with h7 | h7
        · exact absurd h7 (by simp [allTocItems, baseToc])
        · rcases List.mem_map.mp h7 with ⟨d, hd, hde⟩
          exact Or.inl ⟨d, List.mem_append.mpr (Or.inl (List.mem_append.mpr
            (Or.inl hd))), hde.symm⟩
      · rcases List.mem_map.mp h5 with ⟨d, hd, hde⟩
        exact Or.inl ⟨d, List.mem_append.mpr (Or.inl (List.mem_append.mpr
          (Or.inr hd))), hde.symm⟩
    · rcases List.mem_map.mp h3 with ⟨d, hd, hde⟩
      exact Or.inl ⟨d, List.mem_append.mpr (Or.inr hd), hde.symm⟩
  · exact Or.inr h1

/-- Claim C9 (confirmed): in the structure returned by
`generate_toc_structure` after a discovery run, every section's item list
is ascending in priority at each adjacent pair; every item with category
"orphan" has priority exactly 90; and the sort used is a stable
permutation — equal-priority items retain their insertion order (the
filtered subsequence at any fixed priority is unchanged). -/
theorem c9_toc_priority_invariants (fs : FS) (repoRoot docsDir : List String)
    (s0 : DiscoveryState) (k : String) (sec : TocSec)
    (hmem : (k, sec) ∈ (generateTocStructure fs docsDir
      (discoverAll fs repoRoot docsDir s0).2).1) :
    List.Chain' (fun a b => a.priority ≤ b.priority) sec.items ∧
    (∀ it ∈ sec.items, it.category = "orphan" → it.priority = 90) ∧
    (∀ (l : List TocItem) (q : Int),
      List.Perm (sortItems l) l ∧
      (sortItems l).filter (fun z => z.priority == q) =
        l.filter (fun z => z.priority == q)) := by
  rcases List.mem_map.mp hmem with ⟨kv, hkv, hf⟩
  have hsec : sec = ⟨kv.2.title, sortItems kv.2.items⟩ :=
    (congrArg Prod.snd hf).symm
  refine ⟨?_, ?_, fun l q => ⟨sortItems_perm l, sortItems_filter l q⟩⟩
  · rw [hsec]
    exact sortItems_chain' kv.2.items
  · intro it hit hcat
    have hit' : it ∈ kv.2.items := by
      have := hsec ▸ hit
      exact ((sortItems_perm kv.2.items).mem_iff).mp this
    have hall : it ∈ allTocItems
        (buildToc fs docsDir (discoverAll fs repoRoot docsDir s0).2).1 :=
      List.mem_flatMap.mpr ⟨kv, hkv, hit'⟩
    rcases mem_buildToc_cases _ _ _ hall with ⟨d, hd, hde⟩ | hp
    · exfalso
      have hcats : d.category = "user" ∨ d.category = "auto" ∨ d.category = "ai" := by
        rcases List.mem_append.mp hd with h' | h'
        · rcases List.mem_append.mp h' with h'' | h''
          · exact Or.inl (mem_discoverUserDocs_category h'')
          · exact Or.inr (Or.inl (mem_discoverAutoDocs_category h''))
        · exact Or.inr (Or.inr (mem_discoverAiDocs_category h'))
      have : it.category = d.category := by rw [hde]; rfl
      rcases hcats with h' | h' | h' <;> rw [hcat, h'] at this <;> exact absurd this (by decide)
    · exact hp.1

/-- Witness for C9 at a concrete (empty) repository and section. -/
theorem c9_toc_priority_invariants_witness :
    List.Chain' (fun a b => a.priority ≤ b.priority)
      (⟨"Getting Started", []⟩ : TocSec).items ∧
    (∀ it ∈ (⟨"Getting Started", []⟩ : TocSec).items,
      it.category = "orphan" → it.priority = 90) ∧
    (∀ (l : List TocItem) (q : Int),
      List.Perm (sortItems l) l ∧
      (sortItems l).filter (fun z => z.priority == q) =
        l.filter (fun z => z.priority == q)) :=
  c9_toc_priority_invariants ⟨[], []⟩ ["r"] ["r", "docs"] emptyState
    "getting_started" ⟨"Getting Started", []⟩ (by decide)

theorem le_foldl_max (l : List Nat) (b : Nat) :
    b ≤ l.foldl max b ∧ ∀ x ∈ l, x ≤ l.foldl max b := by
  induction l generalizing b with
  | nil => exact ⟨Nat.le_refl b, by simp⟩
  | cons y ys ih =>
    have h := ih (max b y)
    constructor
    · show b ≤ List.foldl max (max b y) ys
      exact le_trans (Nat.le_max_left b y) h.1
    · intro x hx
      show x ≤ List.foldl max (max b y) ys
      rcases List.mem_cons.mp hx with hx | hx
      · subst hx
        exact le_trans (Nat.le_max_right b x) h.1
      · exact h.2 x hx

theorem contentStageOn_score (lowered : List Char)
    (table : List (String × List (List Char))) (b0 : String × Nat) :
    (contentStageOn lowered table b0).2 =
      (table.map (fun sp => sectionScore lowered sp.2)).foldl max b0.2 := by
  induction table generalizing b0 with
  | nil => rfl
  | cons sp rest ih =>
    show (contentStageOn lowered rest (contentStep lowered b0 sp)).2 = _
    rw [ih]
    have : (contentStep lowered b0 sp).2 = max b0.2 (sectionScore lowered sp.2) := by
      unfold contentStep
      split <;> omega
    rw [this]
    rfl

theorem contentStageOn_of_le (lowered : List Char)
    (table : List (String × List (List Char))) (b0 : String × Nat)
    (h : ∀ sp ∈ table, sectionScore lowered sp.2 ≤ b0.2) :
    contentStageOn lowered table b0 = b0 := by
  induction table with
  | nil => rfl
  | cons sp rest ih =>
    show contentStageOn lowered rest (contentStep lowered b0 sp) = b0
    have h1 : contentStep lowered b0 sp = b0 := by
      unfold contentStep
      rw [if_neg (Nat.not_lt.mpr (h sp (List.mem_cons_self sp rest)))]
    rw [h1]
    exact ih (fun e he => h e (List.mem_cons_of_mem sp he))

set_option maxHeartbeats 1000000 in
/-- Claim C3 amended: when the content stage runs, each section's score is
the source's per-keyword weighting (each keyword contributes its full
occurrence count times 3 when the keyword appears anywhere in the first 500
characters, else times 1, as `sectionScore` states); the final score is the
maximum of the incoming score and all section scores, a best candidate is
replaced only by a strictly greater score, and whenever some section beats
the incoming score the winner is the earliest table entry attaining the
maximum — every earlier entry scores strictly less. -/
theorem c3_content_stage_amended (lowered : List Char)
    (table : List (String × List (List Char))) (b0 : String × Nat) :
    (contentStageOn lowered table b0).2 =
      (table.map (fun sp => sectionScore lowered sp.2)).foldl max b0.2 ∧
    ((∀ sp ∈ table, sectionScore lowered sp.2 ≤ b0.2) →
      contentStageOn lowered table b0 = b0) ∧
    (∀ sp0, sp0 ∈ table → b0.2 < sectionScore lowered sp0.2 →
      ∃ pre e post, table = pre ++ e :: post ∧
        (contentStageOn lowered table b0).1 = e.1 ∧
        sectionScore lowered e.2 = (contentStageOn lowered table b0).2 ∧
        (∀ e' ∈ pre, sectionScore lowered e'.2 < sectionScore lowered e.2)) := by
  refine ⟨contentStageOn_score lowered table b0,
    contentStageOn_of_le lowered table b0, ?_⟩
  induction table generalizing b0 with
  | nil => intro sp0 h0; simp at h0
  | cons sp rest ih =>
    intro sp0 hmem hgt
    have hstep : contentStageOn lowered (sp :: rest) b0 =
      contentStageOn lowered rest (contentStep lowered b0 sp) := rfl
    by_cases hsp : b0.2 < sectionScore lowered sp.2
    · -- the head strictly improves on the incoming score
      have hb1 : contentStep lowered b0 sp = (sp.1, sectionScore lowered sp.2) := by
        unfold contentStep; rw [if_pos hsp]
      by_cases hrest : ∀ e ∈ rest,
          sectionScore lowered e.2 ≤ sectionScore lowered sp.2
      · -- nothing in the tail beats the head: the head wins
        refine ⟨[], sp, rest, by simp, ?_, ?_, by simp⟩
        · rw [hstep, hb1, contentStageOn_of_le lowered rest _ (by simpa using hrest)]
        · rw [hstep, hb1, contentStageOn_of_le lowered rest _ (by simpa using hrest)]
      · -- some tail entry beats the head: recurse with the improved best
        push_neg at hrest
        obtain ⟨e0, he0, he0gt⟩ := hrest
        have he0gt' : (contentStep lowered b0 sp).2 < sectionScore lowered e0.2 := by
          rw [hb1]; exact he0gt
        obtain ⟨pre, e, post, hdec, hwin, hsc, hpre⟩ :=
          ih (contentStep lowered b0 sp) e0 he0 he0gt'
        refine ⟨sp :: pre, e, post, by rw [hdec]; rfl, ?_, ?_, ?_⟩
        · rw [hstep]; exact hwin
        · rw [hstep]; exact hsc
        · intro e' he'
          rcases List.mem_cons.mp he' with he' | he'
          · -- the head itself scores strictly below the winner
            have h1 : sectionScore lowered e0.2 ≤
                (contentStageOn lowered rest (contentStep lowered b0 sp)).2 := by
              rw [contentStageOn_score]
              exact (le_foldl_max _ _).2 _ (List.mem_map.mpr ⟨e0, he0, rfl⟩)
            have h2 : sectionScore lowered sp.2 < sectionScore lowered e0.2 := by
              rw [hb1] at he0gt'; exact he0gt'
            rw [he']
            omega
          · exact hpre e' he'
    · -- the head does not improve: the step keeps the incoming best
      have hb1 : contentStep lowered b0 sp = b0 := by
        unfold contentStep; rw [if_neg hsp]
      have hsp0 : sp0 ∈ rest := by
        rcases List.mem_cons.mp hmem with h' | h'
        · exact absurd (h' ▸ hgt) hsp
        · exact h'
      obtain ⟨pre, e, post, hdec, hwin, hsc, hpre⟩ := ih b0 sp0 hsp0 hgt
      refine ⟨sp :: pre, e, post, by rw [hdec]; rfl, ?_, ?_, ?_⟩
      · rw [hstep, hb1]; exact hwin
      · rw [hstep, hb1]; exact hsc
      · intro e' he'
        rcases List.mem_cons.mp he' with he' | he'
        · have h1 : sectionScore lowered sp0.2 ≤
              (contentStageOn lowered rest b0).2 := by
            rw [contentStageOn_score]
            exact (le_foldl_max _ _).2 _ (List.mem_map.mpr ⟨sp0, hsp0, rfl⟩)
          have h2 : ¬ b0.2 < sectionScore lowered sp.2 := hsp
          rw [he']
          omega
        · exact hpre e' he'

set_option maxHeartbeats 3000000 in
/-- Witness for C3's amended theorem: at the concrete content `cexC3` the
reference section beats the incoming score, so the winner is the earliest
maximal entry of the table. -/
theorem c3_content_stage_amended_witness :
    ∃ pre e post, sectionPatternsTable = pre ++ e :: post ∧
      (contentStageOn (pyLower cexC3) sectionPatternsTable ("reference", 0)).1 = e.1 ∧
      sectionScore (pyLower cexC3) e.2 =
        (contentStageOn (pyLower cexC3) sectionPatternsTable ("reference", 0)).2 ∧
      (∀ e' ∈ pre,
        sectionScore (pyLower cexC3) e'.2 < sectionScore (pyLower cexC3) e.2) :=
  (c3_content_stage_amended (pyLower cexC3) sectionPatternsTable
    ("reference", 0)).2.2
    ("reference",
      ["api".toList, "reference".toList, "class".toList, "function".toList,
       "method".toList, "parameter".toList, "attribute".toList])
    (by decide) (by decide)

/-!
## Membership lemmas for the reference folds (claim C4)
-/

theorem mem_insertRef_self (refs : List (List Char)) (r : List Char) :
    r ∈ insertRef refs r := by
  unfold insertRef
  split
  · rename_i h
    exact List.elem_iff.mp h
  · exact List.mem_append.mpr (Or.inr (List.mem_singleton.mpr rfl))

theorem mem_insertRef_mono {x : List Char} (refs : List (List Char)) (r : List Char)
    (h : x ∈ refs) : x ∈ insertRef refs r := by
  unfold insertRef
  split
  · exact h
  · exact List.mem_append.mpr (Or.inl h)

theorem mem_refStep_mono {cond : List Char → Bool} {g : List Char → List Char}
    {x : List Char} (refs : List (List Char)) (raw : List Char)
    (h : x ∈ refs) : x ∈ refStep cond g refs raw := by
  unfold refStep
  split
  · exact h
  · exact mem_insertRef_mono _ _ h

theorem mem_foldl_refStep_mono {cond : List Char → Bool} {g : List Char → List Char}
    {x : List Char} (l : List (List Char)) (refs0 : List (List Char))
    (h : x ∈ refs0) : x ∈ l.foldl (refStep cond g) refs0 := by
  induction l generalizing refs0 with
  | nil => exact h
  | cons r rest ih => exact ih _ (mem_refStep_mono refs0 r h)

theorem mem_foldl_refStep {cond : List Char → Bool} {g : List Char → List Char}
    (l : List (List Char)) (refs0 : List (List Char)) (raw : List Char)
    (h : raw ∈ l) (hc : cond (pyStrip raw) = false) :
    g (pyStrip raw) ∈ l.foldl (refStep cond g) refs0 := by
  induction l generalizing refs0 with
  | nil => simp at h
  | cons r rest ih =>
    rw [List.foldl_cons]
    rcases List.mem_cons.mp h with h' | h'
    · subst h'
      apply mem_foldl_refStep_mono
      show g (pyStrip raw) ∈ refStep cond g refs0 raw
      unfold refStep
      rw [hc]
      simp only [Bool.false_eq_true, if_false]
      exact mem_insertRef_self _ _
    · exact ih _ h'

theorem extractRefs_md (content : List Char) :
    extractRefs ".md" content = addIncludeRefs content (addMdLinkRefs content []) :=
  rfl

theorem extractRefs_rst (content : List Char) :
    extractRefs ".rst" content =
      addIncludeRefs content (addHyperlinkRefs content (addDocRoleRefs content [])) :=
  rfl

theorem mem_addIncludeRefs_mono {x : List Char} (content : List Char)
    (refs0 : List (List Char)) (h : x ∈ refs0) :
    x ∈ addIncludeRefs content refs0 := by
  unfold addIncludeRefs
  exact mem_foldl_refStep_mono _ _ (mem_foldl_refStep_mono _ _
    (mem_foldl_refStep_mono _ _ h))

/-- Claim C4 amended: every extracted reference kind lands in the
reference set of the corresponding format, but only the Markdown inline
link targets are normalized (anchor fragment and `.md`/`.rst` extension
stripped); `:doc:` roles, non-absolute RST hyperlink targets, and
include-directive targets are added verbatim after whitespace stripping.
In particular `[Guide](guides/setup.md#install)` yields exactly
`{"guides/setup"}`. -/
theorem c4_reference_extraction_amended (content : List Char) :
    (∀ raw ∈ scanMdLinks content,
      startsWithAny urlSchemes4 (pyStrip raw) = false →
      dropMdRstExt (stripAnchor (pyStrip raw)) ∈ extractRefs ".md" content) ∧
    (∀ raw ∈ scanDocRoles content, pyStrip raw ∈ extractRefs ".rst" content) ∧
    (∀ raw ∈ scanRstHyperlinks content,
      startsWithAny urlSchemes4 (pyStrip raw) = false →
      pyStrip raw ∈ extractRefs ".rst" content) ∧
    (∀ raw ∈ scanRstIncludes content,
      startsWithAny urlSchemes3 (pyStrip raw) = false →
      pyStrip raw ∈ extractRefs ".md" content ∧
        pyStrip raw ∈ extractRefs ".rst" content) ∧
    extractRefs ".md" ("[Guide](guides/setup.md#install)".toList) =
      ["guides/setup".toList] := by
  refine ⟨?_, ?_, ?_, ?_, by decide⟩
  · intro raw hraw hc
    rw [extractRefs_md]
    exact mem_addIncludeRefs_mono _ _ (mem_foldl_refStep _ _ raw hraw hc)
  · intro raw hraw
    rw [extractRefs_rst]
    apply mem_addIncludeRefs_mono
    apply mem_foldl_refStep_mono
    exact mem_foldl_refStep _ _ raw hraw rfl
  · intro raw hraw hc
    rw [extractRefs_rst]
    apply mem_addIncludeRefs_mono
    exact mem_foldl_refStep _ _ raw hraw hc
  · intro raw hraw hc
    constructor
    · rw [extractRefs_md]
      unfold addIncludeRefs
      exact mem_foldl_refStep_mono _ _ (mem_foldl_refStep_mono _ _
        (mem_foldl_refStep _ _ raw hraw hc))
    · rw [extractRefs_rst]
      unfold addIncludeRefs
      exact mem_foldl_refStep_mono _ _ (mem_foldl_refStep_mono _ _
        (mem_foldl_refStep _ _ raw hraw hc))

/-- Witness for C4's amended theorem at concrete contents. -/
theorem c4_reference_extraction_amended_witness :
    dropMdRstExt (stripAnchor (pyStrip "guides/setup.md#install".toList)) ∈
      extractRefs ".md" ("[Guide](guides/setup.md#install)".toList) ∧
    pyStrip "chunk.rst".toList ∈
      extractRefs ".rst" (".. include:: chunk.rst".toList) :=
  ⟨(c4_reference_extraction_amended ("[Guide](guides/setup.md#install)".toList)).1
      ("guides/setup.md#install".toList) (by decide) (by decide),
   ((c4_reference_extraction_amended (".. include:: chunk.rst".toList)).2.2.2.1
      ("chunk.rst".toList) (by decide) (by decide)).2⟩

/-!
## Characterization of the RST title scan (claim C5)
-/

theorem splitOnNl_ne_nil (l : List Char) : splitOnNl l ≠ [] := by
  cases l with
  | nil => simp [splitOnNl]
  | cons c cs =>
    simp only [splitOnNl]
    cases splitOnNl cs with
    | nil => simp
    | cons r rs =>
      split
      · simp
      · split <;> simp

theorem pairScanBy_eq_some_iff (cond : List Char → List Char → Bool)
    (ls : List (List Char)) (t : List Char) :
    pairScanBy cond ls = some t ↔
      ∃ i a b, ls.get? i = some a ∧ ls.get? (i + 1) = some b ∧
        cond a b = true ∧ t = pyStrip a ∧
        ∀ j, j < i → ∀ a' b', ls.get? j = some a' → ls.get? (j + 1) = some b' →
          cond a' b' = false := by
  induction ls with
  | nil =>
    constructor
    · intro h
      exact absurd h (by simp [pairScanBy])
    · rintro ⟨i, a, b, ha, -⟩
      simp at ha
  | cons a tl ih =>
    cases tl with
    | nil =>
      constructor
      · intro h
        exact absurd h (by simp [pairScanBy])
      · rintro ⟨i, x, y, hx, hy, -⟩
        cases i with
        | zero => simp at hy
        | succ n => simp at hx
    | cons b rest =>
      by_cases hc : cond a b = true
      · constructor
        · intro h
          have h' : some (pyStrip a) = some t := by
            simpa [pairScanBy, hc] using h
          refine ⟨0, a, b, rfl, rfl, hc, (Option.some.inj h').symm, ?_⟩
          intro j hj
          exact absurd hj (Nat.not_lt_zero j)
        · rintro ⟨i, x, y, hx, hy, hcond, ht, hmin⟩
          have hres : pairScanBy cond (a :: b :: rest) = some (pyStrip a) := by
            simp [pairScanBy, hc]
          rw [hres]
          cases i with
          | zero =>
            have hxa : x = a := by simpa using hx.symm
            rw [ht, hxa]
          | succ n =>
            have := hmin 0 (Nat.succ_pos n) a b rfl rfl
            rw [this] at hc
            exact absurd hc (by simp)
      · have hscan : pairScanBy cond (a :: b :: rest) = pairScanBy cond (b :: rest) := by
          simp [pairScanBy, hc]
        rw [hscan, ih]
        constructor
        · rintro ⟨i, x, y, hx, hy, hcond, ht, hmin⟩
          refine ⟨i + 1, x, y, by simpa using hx, by simpa using hy, hcond, ht, ?_⟩
          intro j hj x' y' hx' hy'
          cases j with
          | zero =>
            have hx'a : x' = a := by simpa using hx'.symm
            have hy'b : y' = b := by simpa using hy'.symm
            rw [hx'a, hy'b]
            revert hc
            cases cond a b <;> simp
          | succ m =>
            exact hmin m (Nat.lt_of_succ_lt_succ hj) x' y'
              (by simpa using hx') (by simpa using hy')
        · rintro ⟨i, x, y, hx, hy, hcond, ht, hmin⟩
          cases i with
          | zero =>
            have hxa : x = a := by simpa using hx.symm
            have hyb : y = b := by simpa using hy.symm
            rw [hxa, hyb] at hcond
            exact absurd hcond hc
          | succ n =>
            refine ⟨n, x, y, by simpa using hx, by simpa using hy, hcond, ht, ?_⟩
            intro j hj x' y' hx' hy'
            exact hmin (j + 1) (Nat.succ_lt_succ hj) x' y'
              (by simpa using hx') (by simpa using hy')

theorem scanFromSecondLine_eq_some_iff (cond : List Char → List Char → Bool)
    (lines : List (List Char)) (t : List Char) :
    scanFromSecondLine cond lines = some t ↔
      ∃ i a b, 1 ≤ i ∧ lines.get? i = some a ∧ lines.get? (i + 1) = some b ∧
        cond a b = true ∧ t = pyStrip a ∧
        ∀ j, 1 ≤ j → j < i → ∀ a' b', lines.get? j = some a' →
          lines.get? (j + 1) = some b' → cond a' b' = false := by
  cases lines with
  | nil =>
    constructor
    · intro h
      exact absurd h (by simp [scanFromSecondLine])
    · rintro ⟨i, a, b, -, ha, -⟩
      simp at ha
  | cons l0 rest =>
    have h0 : scanFromSecondLine cond (l0 :: rest) = pairScanBy cond rest := rfl
    rw [h0, pairScanBy_eq_some_iff]
    constructor
    · rintro ⟨i, a, b, ha, hb, hcond, ht, hmin⟩
      refine ⟨i + 1, a, b, Nat.le_add_left 1 i, by simpa using ha,
        by simpa using hb, hcond, ht, ?_⟩
      intro j hj1 hji a' b' ha' hb'
      cases j with
      | zero => exact absurd hj1 (by omega)
      | succ m =>
        exact hmin m (Nat.lt_of_succ_lt_succ hji) a' b'
          (by simpa using ha') (by simpa using hb')
    · rintro ⟨i, a, b, hi1, ha, hb, hcond, ht, hmin⟩
      cases i with
      | zero => exact absurd hi1 (by omega)
      | succ n =>
        refine ⟨n, a, b, by simpa using ha, by simpa using hb, hcond, ht, ?_⟩
        intro j hj a' b' ha' hb'
        exact hmin (j + 1) (Nat.le_add_left 1 j) (Nat.succ_lt_succ hj) a' b'
          (by simpa using ha') (by simpa using hb')

/-- Claim C5 amended: for an RST file, the extracted title is the first
line at index ≥ 1 — the very first line is never considered — that is
immediately followed by a non-empty line of `=`/`-` characters whose
*stripped length equals the title line's stripped length exactly* (no 80%
tolerance); when no such pair exists, the record keeps the
filename-derived fallback title. -/
theorem c5_rst_title_amended (content : List Char) :
    (∀ t, findRstTitle content = some t ↔
      ∃ i a b, 1 ≤ i ∧ (splitOnNl content).get? i = some a ∧
        (splitOnNl content).get? (i + 1) = some b ∧ rstCond a b = true ∧
        t = pyStrip a ∧
        ∀ j, 1 ≤ j → j < i → ∀ a' b',
          (splitOnNl content).get? j = some a' →
          (splitOnNl content).get? (j + 1) = some b' → rstCond a' b' = false) ∧
    (∀ (fs : FS) (p : List String) (cat sec : String) (pr : Int)
      (c : List Char), pathSuffix p = ".rst" → readFS fs p = some c →
      findRstTitle c = none →
      (mkDocumentMetadata fs p cat sec pr).title =
        fallbackTitleChars (pathStem p).toList) := by
  constructor
  · intro t
    exact scanFromSecondLine_eq_some_iff rstCond (splitOnNl content) t
  · intro fs p cat sec pr c hsfx hread hnone
    unfold mkDocumentMetadata
    rw [hread]
    show (extractTitle (pathSuffix p) c).getD _ = _
    rw [hsfx]
    have hnone' : extractTitle ".rst" c = none := by
      unfold extractTitle
      rw [if_neg (by decide), if_pos (by decide)]
      exact hnone
    rw [hnone']
    rfl

/-- Witness for C5's amended theorem: a title pair at index 1 is found, and
a first-line-only title pair makes the record fall back to the
filename-derived title. -/
theorem c5_rst_title_amended_witness :
    (∃ i a b, 1 ≤ i ∧
      (splitOnNl ("intro\nTitle\n=====".toList)).get? i = some a ∧
      (splitOnNl ("intro\nTitle\n=====".toList)).get? (i + 1) = some b ∧
      rstCond a b = true ∧ "Title".toList = pyStrip a ∧
      ∀ j, 1 ≤ j → j < i → ∀ a' b',
        (splitOnNl ("intro\nTitle\n=====".toList)).get? j = some a' →
        (splitOnNl ("intro\nTitle\n=====".toList)).get? (j + 1) = some b' →
        rstCond a' b' = false) ∧
    (mkDocumentMetadata fsC5 ["docs", "t.rst"] "user" "guides" 50).title =
      fallbackTitleChars (pathStem ["docs", "t.rst"]).toList :=
  ⟨((c5_rst_title_amended ("intro\nTitle\n=====".toList)).1
      ("Title".toList)).mp (by decide),
   (c5_rst_title_amended cexC5).2 fsC5 ["docs", "t.rst"] "user" "guides" 50
     cexC5 (by decide) rfl (by decide)⟩

theorem find?_eq_some_iff_split {p : List Char → Bool}
    (l : List (List Char)) (x : List Char) :
    l.find? p = some x ↔
      p x = true ∧ ∃ pre post, l = pre ++ x :: post ∧ ∀ y ∈ pre, p y = false := by
  induction l with
  | nil =>
    constructor
    · intro h; exact absurd h (by simp)
    · rintro ⟨-, pre, post, hdec, -⟩
      exact absurd hdec (by simp)
  | cons a tl ih =>
    by_cases hpa : p a = true
    · rw [List.find?_cons_of_pos _ hpa]
      constructor
      · intro h
        have hxa : x = a := (Option.some.inj h).symm
        exact ⟨hxa ▸ hpa, [], tl, by rw [hxa]; rfl, by simp⟩
      · rintro ⟨hx, pre, post, hdec, hmin⟩
        cases pre with
        | nil =>
          have : a = x := by simpa using congrArg (fun l => l.head?) hdec
          rw [this]
        | cons y pre' =>
          have hya : a = y := by simpa using congrArg (fun l => l.head?) hdec
          have := hmin y (List.mem_cons_self y pre')
          rw [← hya, hpa] at this
          exact absurd this (by simp)
    · rw [List.find?_cons_of_neg _ hpa]
      rw [ih]
      constructor
      · rintro ⟨hx, pre, post, hdec, hmin⟩
        refine ⟨hx, a :: pre, post, by rw [hdec]; rfl, ?_⟩
        intro y hy
        rcases List.mem_cons.mp hy with hy | hy
        · rw [hy]
          revert hpa
          cases p a <;> simp
        · exact hmin y hy
      · rintro ⟨hx, pre, post, hdec, hmin⟩
        cases pre with
        | nil =>
          have : a = x := by simpa using congrArg (fun l => l.head?) hdec
          rw [this] at hpa
          exact absurd hx hpa
        | cons y pre' =>
          have htl : tl = pre' ++ x :: post := by
            simpa using congrArg List.tail hdec
          exact ⟨hx, pre', post, htl,
            fun y' hy' => hmin y' (List.mem_cons_of_mem y hy')⟩

theorem orphanMdTitleLines_eq_some_iff (lines : List (List Char)) (t : List Char) :
    orphanMdTitleLines lines = some t ↔
      ∃ pre l post, lines = pre ++ l :: post ∧
        (['#', ' ']).isPrefixOf l = true ∧ t = pyStrip (l.drop 2) ∧
        ∀ l' ∈ pre, (['#', ' ']).isPrefixOf l' = false := by
  unfold orphanMdTitleLines
  rw [Option.map_eq_some']
  constructor
  · rintro ⟨l, hfind, ht⟩
    obtain ⟨hp, pre, post, hdec, hmin⟩ := (find?_eq_some_iff_split lines l).mp hfind
    exact ⟨pre, l, post, hdec, hp, ht.symm, hmin⟩
  · rintro ⟨pre, l, post, hdec, hp, ht, hmin⟩
    exact ⟨l, (find?_eq_some_iff_split lines l).mpr ⟨hp, pre, post, hdec, hmin⟩,
      ht.symm⟩

/-- Claim C6 amended: the orphan title is synthesised by the analyser's own
heuristic, not the Metadata Extractor's, and on the content it has cached:
when a filename keyword matched (score 2) the title stage always fails
(the local `content_key` is unbound) and the title is the filename-derived
fallback; when the content is unreadable the fallback is used; otherwise
the heuristic — first line starting with the literal `"# "` for Markdown,
first pair at line index ≥ 1 whose underline satisfies the one-sided 80%
tolerance for RST — is applied to the *lower-cased* content cached by the
scoring stage. -/
theorem c6_orphan_title_amended :
    (∀ (stem : List Char) (sfx : String) (c? : Option (List Char)),
      2 ≤ (filenameStage (pyLower stem)).2 →
      (analyzeOrphanContent stem sfx c?).2 = fallbackTitleChars stem) ∧
    (∀ (stem : List Char) (sfx : String),
      (filenameStage (pyLower stem)).2 < 2 →
      (analyzeOrphanContent stem sfx none).2 = fallbackTitleChars stem) ∧
    (∀ (stem c : List Char), (filenameStage (pyLower stem)).2 < 2 →
      (analyzeOrphanContent stem ".md" (some c)).2 =
        (orphanMdTitleLines (splitOnNl (pyLower c))).getD
          (fallbackTitleChars stem)) ∧
    (∀ (stem c : List Char), (filenameStage (pyLower stem)).2 < 2 →
      (analyzeOrphanContent stem ".rst" (some c)).2 =
        (orphanRstTitleLines (splitOnNl (pyLower c))).getD
          (fallbackTitleChars stem)) ∧
    (∀ (lines : List (List Char)) (t : List Char),
      orphanMdTitleLines lines = some t ↔
        ∃ pre l post, lines = pre ++ l :: post ∧
          (['#', ' ']).isPrefixOf l = true ∧ t = pyStrip (l.drop 2) ∧
          ∀ l' ∈ pre, (['#', ' ']).isPrefixOf l' = false) ∧
    (∀ (lines : List (List Char)) (t : List Char),
      orphanRstTitleLines lines = some t ↔
        ∃ i a b, 1 ≤ i ∧ lines.get? i = some a ∧ lines.get? (i + 1) = some b ∧
          orphanRstCond a b = true ∧ t = pyStrip a ∧
          ∀ j, 1 ≤ j → j < i → ∀ a' b', lines.get? j = some a' →
            lines.get? (j + 1) = some b' → orphanRstCond a' b' = false) := by
  refine ⟨?_, ?_, ?_, ?_, orphanMdTitleLines_eq_some_iff,
    fun lines t => scanFromSecondLine_eq_some_iff orphanRstCond lines t⟩
  · intro stem sfx c? h
    unfold analyzeOrphanContent
    rw [if_neg (by omega)]
  · intro stem sfx h
    unfold analyzeOrphanContent
    rw [if_pos h]
  · intro stem c h
    unfold analyzeOrphanContent
    rw [if_pos h]
    show orphanTitleFrom ".md" (pyLower c) (fallbackTitleChars stem) = _
    unfold orphanTitleFrom
    rw [if_pos (by decide)]
  · intro stem c h
    unfold analyzeOrphanContent
    rw [if_pos h]
    show orphanTitleFrom ".rst" (pyLower c) (fallbackTitleChars stem) = _
    unfold orphanTitleFrom
    rw [if_neg (by decide), if_pos (by decide)]

/-- Witness for C6's amended theorem at concrete orphans. -/
theorem c6_orphan_title_amended_witness :
    (analyzeOrphanContent "installation_notes".toList ".md"
      (some "# Real Title\n".toList)).2 =
        fallbackTitleChars "installation_notes".toList ∧
    (analyzeOrphanContent "notes".toList ".md" (some cexC6)).2 =
      (orphanMdTitleLines (splitOnNl (pyLower cexC6))).getD
        (fallbackTitleChars "notes".toList) ∧
    (analyzeOrphanContent "notes".toList ".rst" none).2 =
      fallbackTitleChars "notes".toList :=
  ⟨c6_orphan_title_amended.1 "installation_notes".toList ".md"
      (some "# Real Title\n".toList) (by decide),
   c6_orphan_title_amended.2.2.1 "notes".toList cexC6 (by decide),
   c6_orphan_title_amended.2.1 "notes".toList ".rst" (by decide)⟩

/-- Witness for C7 with its hypotheses discharged at concrete inputs. -/
theorem c7_priority_properties_witness :
    calculateDocPriority "readme" "guides" "user" 5 2 ≤
      calculateDocPriority "setup" "guides" "user" 5 2 ∧
    calculateDocPriority "setup" "guides" "user" 5 2 ≤
      calculateDocPriority "setup" "guides" "user" 7 2 ∧
    calculateDocPriority "setup" "guides" "user" 5 2 ≤
      calculateDocPriority "setup" "api" "user" 5 2 :=
  ⟨(c7_priority_properties "setup" "guides" "user" 5 2).2.2.2.1 (by decide),
   (c7_priority_properties "setup" "guides" "user" 5 2).2.2.2.2.1 7 (by decide),
   (c7_priority_properties "setup" "guides" "user" 5 2).2.2.2.2.2 (by decide) "api"⟩

/-!
## Claim C1: support lemmas (path bookkeeping of the discovery engine)
-/

theorem mkDocumentMetadata_path (fs : FS) (p : List String) (c s : String)
    (pr : Int) : (mkDocumentMetadata fs p c s pr).path = p := by
  unfold mkDocumentMetadata
  cases readFS fs p <;> rfl

theorem filterMap_paths (f : List String → DocumentMetadata)
    (hf : ∀ p, (f p).path = p) :
    ∀ l : List (List String),
      ((l.filterMap (fun p =>
        if hasUnderscorePart p then none else some (f p))).map
          (fun d => d.path)) = l.filter (fun p => !hasUnderscorePart p)
  | [] => rfl
  | p :: rest => by
    cases hu : hasUnderscorePart p <;>
      simp [List.filterMap_cons, List.filter_cons, hu,
        filterMap_paths f hf rest, hf p]

theorem discoverDirFiles_paths (fs : FS) (sd dd : List String) (c s : String) :
    (discoverDirFiles fs sd dd c s).map (fun d => d.path) = dirPathsOf fs sd := by
  unfold discoverDirFiles dirPathsOf
  rw [List.map_flatMap]
  congr 1
  funext ext
  exact filterMap_paths _ (fun p => mkDocumentMetadata_path fs p c s _) _

theorem mem_globFS {fs : FS} {d : List String} {ext : String} {p : List String}
    (h : p ∈ globFS fs d ext) :
    d <+: p ∧ d.length < p.length ∧
      p ∈ fs.files.map (fun f => f.path) ∧ extMatch ext p = true := by
  unfold globFS at h
  obtain ⟨hm, hp⟩ := List.mem_filter.mp h
  simp only [Bool.and_eq_true, decide_eq_true_eq] at hp
  exact ⟨ List.isPrefixOf_iff_prefix.mp hp.1.1, hp.1.2, hm, hp.2⟩

theorem globFS_nodup (fs : FS) (d : List String) (ext : String)
    (hnd : (fs.files.map (fun f => f.path)).Nodup) : (globFS fs d ext).Nodup := by
  unfold globFS
  exact hnd.filter _

theorem get?_append_left {α : Type} : ∀ (l t : List α) (i : Nat),
    i < l.length → (l ++ t).get? i = l.get? i
  | [], _, _, h => absurd h (by simp)
  | _ :: _, _, 0, _ => rfl
  | _ :: l', t, i + 1, h => get?_append_left l' t i (Nat.lt_of_succ_lt_succ h)

theorem prefix_get? {α : Type} {l n : List α} (h : l <+: n) (i : Nat)
    (hi : i < l.length) : n.get? i = l.get? i := by
  obtain ⟨t, ht⟩ := h
  rw [← ht]
  exact get?_append_left l t i hi

theorem get?_append_len {α : Type} : ∀ (r : List α) (x : α) (t : List α),
    (r ++ x :: t).get? r.length = some x
  | [], _, _ => rfl
  | _ :: r', x, t => get?_append_len r' x t

theorem pre_get {r p : List String} {x : String} (h : (r ++ [x]) <+: p) :
    p.get? r.length = some x := by
  obtain ⟨t, ht⟩ := h
  rw [← ht, List.append_assoc]
  exact get?_append_len r x t

theorem pre_get2 {dd p : List String} {y z : String}
    (h : ((dd ++ [y]) ++ [z]) <+: p) :
    p.get? dd.length = some y ∧ p.get? (dd.length + 1) = some z := by
  refine ⟨pre_get ((List.prefix_append (dd ++ [y]) [z]).trans h), ?_⟩
  have h2 := pre_get h
  simpa using h2

theorem ext_clash {p : List String} :
    ∀ e1 ∈ docExtensions, ∀ e2 ∈ docExtensions, e1 ≠ e2 →
      extMatch e1 p = true → extMatch e2 p = true → False := by
  intro e1 h1 e2 h2 hne hm1 hm2
  have r1 : e1.toList.reverse <+: (pathName p).toList.reverse :=
    List.isPrefixOf_iff_prefix.mp hm1
  have r2 : e2.toList.reverse <+: (pathName p).toList.reverse :=
    List.isPrefixOf_iff_prefix.mp hm2
  simp only [docExtensions, List.mem_cons, List.not_mem_nil, or_false] at h1 h2
  rcases h1 with rfl | rfl | rfl <;> rcases h2 with rfl | rfl | rfl <;>
    first
      | exact hne rfl
      | exact absurd ((prefix_get? r1 0 (by decide)).symm.trans
          (prefix_get? r2 0 (by decide))) (by decide)
      | exact absurd ((prefix_get? r1 1 (by decide)).symm.trans
          (prefix_get? r2 1 (by decide))) (by decide)

theorem nodup_flatMap_disjoint {α β : Type} :
    ∀ (l : List α) (f : α → List β), l.Nodup → (∀ a, (f a).Nodup) →
      (∀ a ∈ l, ∀ b ∈ l, a ≠ b → ∀ x, x ∈ f a → x ∈ f b → False) →
      (l.flatMap f).Nodup
  | [], _, _, _, _ => by simp
  | a :: rest, f, hl, hf, hdisj => by
    rw [List.flatMap_cons, List.nodup_append]
    obtain ⟨hna, hnr⟩ := List.nodup_cons.mp hl
    refine ⟨hf a, nodup_flatMap_disjoint rest f hnr hf ?_, ?_⟩
    · intro x hx y hy hxy z hz1 hz2
      exact hdisj x (List.mem_cons_of_mem a hx) y (List.mem_cons_of_mem a hy)
        hxy z hz1 hz2
    · intro x hx hx'
      rcases List.mem_flatMap.mp hx' with ⟨b, hb, hxb⟩
      exact hdisj a (List.mem_cons_self a rest) b (List.mem_cons_of_mem a hb)
        (fun h => hna (by rw [h]; exact hb)) x hx hxb

theorem dirPathsOf_nodup (fs : FS) (sd : List String)
    (hnd : (fs.files.map (fun f => f.path)).Nodup) : (dirPathsOf fs sd).Nodup := by
  unfold dirPathsOf
  refine nodup_flatMap_disjoint _ _ (by decide)
    (fun ext => (globFS_nodup fs sd ext hnd).filter _) ?_
  intro e1 h1 e2 h2 hne x hx1 hx2
  exact ext_clash e1 h1 e2 h2 hne
    (mem_globFS (List.mem_filter.mp hx1).1).2.2.2
    (mem_globFS (List.mem_filter.mp hx2).1).2.2.2

theorem mem_dirPathsOf {fs : FS} {sd p : List String} (h : p ∈ dirPathsOf fs sd) :
    sd <+: p ∧ sd.length < p.length ∧ p ∈ fs.files.map (fun f => f.path) := by
  unfold dirPathsOf at h
  rcases List.mem_flatMap.mp h with ⟨ext, _, hm⟩
  have hg := mem_globFS (List.mem_filter.mp hm).1
  exact ⟨hg.1, hg.2.1, hg.2.2.1⟩

theorem userPaths_eq (fs : FS) (ud dd : List String) :
    (discoverUserDocs fs ud dd).map (fun d => d.path) =
      if existsFS fs ud then
        (listdirFS fs ud).flatMap (fun sect =>
          if isDirFS fs (ud ++ [sect]) then dirPathsOf fs (ud ++ [sect]) else [])
      else [] := by
  unfold discoverUserDocs
  split
  · rw [List.map_flatMap]
    congr 1
    funext sect
    cases hc : isDirFS fs (ud ++ [sect]) <;>
      simp [hc, discoverDirFiles_paths fs (ud ++ [sect]) dd "user" sect]
  · rfl

theorem aiPaths_eq (fs : FS) (ad dd : List String) :
    (discoverAiDocs fs ad dd).map (fun d => d.path) =
      if existsFS fs ad then
        (listdirFS fs ad).flatMap (fun sect =>
          if isDirFS fs (ad ++ [sect]) then dirPathsOf fs (ad ++ [sect]) else [])
      else [] := by
  unfold discoverAiDocs
  split
  · rw [List.map_flatMap]
    congr 1
    funext sect
    cases hc : isDirFS fs (ad ++ [sect]) <;>
      simp [hc, discoverDirFiles_paths fs (ad ++ [sect]) dd "ai" sect]
  · rfl

theorem autoPaths_eq (fs : FS) (dd ad : List String) :
    (discoverAutoDocs fs dd ad).map (fun d => d.path) =
      (autoDirsOf dd ad).flatMap (fun sd =>
        if existsFS fs sd then dirPathsOf fs sd else []) := by
  unfold discoverAutoDocs
  rw [List.map_flatMap]
  congr 1
  funext sd
  cases hc : existsFS fs sd <;>
    simp [hc, discoverDirFiles_paths fs sd dd "auto" (pathName sd)]

theorem listdirFS_nodup (fs : FS) (d : List String) : (listdirFS fs d).Nodup := by
  unfold listdirFS
  exact List.nodup_dedup _

theorem sections_disjoint (fs : FS) (base : List String) :
    ∀ a ∈ listdirFS fs base, ∀ b ∈ listdirFS fs base, a ≠ b → ∀ x,
      x ∈ (if isDirFS fs (base ++ [a]) then dirPathsOf fs (base ++ [a]) else []) →
      x ∈ (if isDirFS fs (base ++ [b]) then dirPathsOf fs (base ++ [b]) else []) →
      False := by
  intro a _ b _ hab x hx1 hx2
  split at hx1
  · split at hx2
    · have g1 := pre_get (mem_dirPathsOf hx1).1
      have g2 := pre_get (mem_dirPathsOf hx2).1
      exact hab (Option.some.inj (g1.symm.trans g2))
    · simp at hx2
  · simp at hx1

theorem userPaths_nodup (fs : FS) (ud dd : List String)
    (hnd : (fs.files.map (fun f => f.path)).Nodup) :
    ((discoverUserDocs fs ud dd).map (fun d => d.path)).Nodup := by
  rw [userPaths_eq]
  split
  · refine nodup_flatMap_disjoint _ _ (listdirFS_nodup fs ud) ?_
      (sections_disjoint fs ud)
    intro sect
    split
    · exact dirPathsOf_nodup fs (ud ++ [sect]) hnd
    · exact List.nodup_nil
  · exact List.nodup_nil

theorem aiPaths_nodup (fs : FS) (ad dd : List String)
    (hnd : (fs.files.map (fun f => f.path)).Nodup) :
    ((discoverAiDocs fs ad dd).map (fun d => d.path)).Nodup := by
  rw [aiPaths_eq]
  split
  · refine nodup_flatMap_disjoint _ _ (listdirFS_nodup fs ad) ?_
      (sections_disjoint fs ad)
    intro sect
    split
    · exact dirPathsOf_nodup fs (ad ++ [sect]) hnd
    · exact List.nodup_nil
  · exact List.nodup_nil

theorem autoDirs_nodup (dd : List String) :
    (autoDirsOf dd (dd ++ ["auto_docs"])).Nodup := by
  have he : autoDirsOf dd (dd ++ ["auto_docs"]) =
      [["auto_docs", "api"], ["auto_docs", "introspected"],
       ["auto_docs", "extracted"], ["autoapi"], ["apidoc"],
       ["reference"]].map (fun s => dd ++ s) := by
    simp [autoDirsOf, List.append_assoc]
  rw [he]
  refine List.Nodup.map ?_ (by decide)
  intro a b h
  simpa using h

theorem autoDirs_disjoint (fs : FS) (dd : List String) :
    ∀ a ∈ autoDirsOf dd (dd ++ ["auto_docs"]),
      ∀ b ∈ autoDirsOf dd (dd ++ ["auto_docs"]), a ≠ b → ∀ x,
      x ∈ (if existsFS fs a then dirPathsOf fs a else []) →
      x ∈ (if existsFS fs b then dirPathsOf fs b else []) → False := by
  intro a ha b hb hab x hx1 hx2
  split at hx1
  · split at hx2
    · have hp1 := (mem_dirPathsOf hx1).1
      have hp2 := (mem_dirPathsOf hx2).1
      simp only [autoDirsOf, List.mem_cons, List.not_mem_nil, or_false]
        at ha hb
      rcases ha with rfl | rfl | rfl | rfl | rfl | rfl <;>
        rcases hb with rfl | rfl | rfl | rfl | rfl | rfl <;>
          first
            | exact hab rfl
            | exact absurd ((pre_get2 hp1).2.symm.trans (pre_get2 hp2).2)
                (by decide)
            | exact absurd ((pre_get2 hp1).1.symm.trans (pre_get hp2))
                (by decide)
            | exact absurd ((pre_get hp1).symm.trans (pre_get2 hp2).1)
                (by decide)
            | exact absurd ((pre_get hp1).symm.trans (pre_get hp2))
                (by decide)
    · simp at hx2
  · simp at hx1

theorem autoPaths_nodup (fs : FS) (dd : List String)
    (hnd : (fs.files.map (fun f => f.path)).Nodup) :
    ((discoverAutoDocs fs dd (dd ++ ["auto_docs"])).map (fun d => d.path)).Nodup := by
  rw [autoPaths_eq]
  refine nodup_flatMap_disjoint _ _ (autoDirs_nodup dd) ?_
    (autoDirs_disjoint fs dd)
  intro sd
  split
  · exact dirPathsOf_nodup fs sd hnd
  · exact List.nodup_nil

theorem mem_userPaths_pre {fs : FS} {ud dd x : List String}
    (hx : x ∈ (discoverUserDocs fs ud dd).map (fun d => d.path)) :
    ∃ sect, (ud ++ [sect]) <+: x := by
  rw [userPaths_eq] at hx
  split at hx
  · rcases List.mem_flatMap.mp hx with ⟨sect, _, hx'⟩
    split at hx'
    · exact ⟨sect, (mem_dirPathsOf hx').1⟩
    · simp at hx'
  · simp at hx

theorem mem_aiPaths_pre {fs : FS} {ad dd x : List String}
    (hx : x ∈ (discoverAiDocs fs ad dd).map (fun d => d.path)) :
    ∃ sect, (ad ++ [sect]) <+: x := by
  rw [aiPaths_eq] at hx
  split at hx
  · rcases List.mem_flatMap.mp hx with ⟨sect, _, hx'⟩
    split at hx'
    · exact ⟨sect, (mem_dirPathsOf hx').1⟩
    · simp at hx'
  · simp at hx

theorem mem_autoPaths_pre {fs : FS} {dd x : List String}
    (hx : x ∈ (discoverAutoDocs fs dd (dd ++ ["auto_docs"])).map
      (fun d => d.path)) :
    x.get? dd.length = some "auto_docs" ∨ x.get? dd.length = some "autoapi" ∨
      x.get? dd.length = some "apidoc" ∨ x.get? dd.length = some "reference" := by
  rw [autoPaths_eq] at hx
  rcases List.mem_flatMap.mp hx with ⟨sd, hsd, hx'⟩
  split at hx'
  · have hp := (mem_dirPathsOf hx').1
    simp only [autoDirsOf, List.mem_cons, List.not_mem_nil, or_false] at hsd
    rcases hsd with rfl | rfl | rfl | rfl | rfl | rfl
    · exact Or.inl (pre_get2 hp).1
    · exact Or.inl (pre_get2 hp).1
    · exact Or.inl (pre_get2 hp).1
    · exact Or.inr (Or.inl (pre_get hp))
    · exact Or.inr (Or.inr (Or.inl (pre_get hp)))
    · exact Or.inr (Or.inr (Or.inr (pre_get hp)))
  · simp at hx'

theorem mem_userPaths_tag {fs : FS} {rr dd x : List String}
    (hx : x ∈ (discoverUserDocs fs (userDocsDirOf rr) dd).map (fun d => d.path)) :
    x.get? (rr.length + 1) = some "user_docs" := by
  obtain ⟨sect, hp⟩ := mem_userPaths_pre hx
  rw [show userDocsDirOf rr = (rr ++ ["docs"]) ++ ["user_docs"] from
    by simp [userDocsDirOf]] at hp
  have hw : ((rr ++ ["docs"]) ++ ["user_docs"]) <+: x :=
    (List.prefix_append _ _).trans hp
  have hg := pre_get hw
  simpa using hg

theorem mem_aiPaths_tag {fs : FS} {rr dd x : List String}
    (hx : x ∈ (discoverAiDocs fs (aiDocsDirOf rr) dd).map (fun d => d.path)) :
    x.get? (rr.length + 1) = some "ai_docs" := by
  obtain ⟨sect, hp⟩ := mem_aiPaths_pre hx
  rw [show aiDocsDirOf rr = (rr ++ ["docs"]) ++ ["ai_docs"] from
    by simp [aiDocsDirOf]] at hp
  have hw : ((rr ++ ["docs"]) ++ ["ai_docs"]) <+: x :=
    (List.prefix_append _ _).trans hp
  have hg := pre_get hw
  simpa using hg

theorem strOfPath_append_cons : ∀ (d : List String), d ≠ [] → ∀ (x : String)
    (t : List String),
    strOfPath (d ++ x :: t) = strOfPath d ++ '/' :: strOfPath (x :: t)
  | [], h, _, _ => absurd rfl h
  | [s], _, x, t => rfl
  | s :: u :: d', _, x, t => by
    have ih := strOfPath_append_cons (u :: d') (by simp) x t
    show s.toList ++ '/' :: strOfPath ((u :: d') ++ x :: t) =
      (s.toList ++ '/' :: strOfPath (u :: d')) ++ '/' :: strOfPath (x :: t)
    rw [ih]
    simp

theorem identifyOrphans_docsRoot (fs : FS) (rr : List String)
    (tracked : List (List Char)) :
    identifyOrphans fs rr (docsRootOf rr) tracked = [] := by
  simp only [identifyOrphans]
  rw [List.filter_eq_nil_iff]
  intro p hp
  rcases List.mem_flatMap.mp hp with ⟨ext, _, hpg⟩
  obtain ⟨hpre, hlt, hpm, _⟩ := mem_globFS hpg
  have hdir : existsFS fs (docsRootOf rr) = true := by
    unfold existsFS isDirFS
    rcases List.mem_map.mp hpm with ⟨f, hf, hfp⟩
    have hw : fs.files.any (fun f => (docsRootOf rr).isPrefixOf f.path &&
        decide ((docsRootOf rr).length < f.path.length)) = true := by
      rw [List.any_eq_true]
      refine ⟨f, hf, ?_⟩
      rw [hfp]
      simp [ List.isPrefixOf_iff_prefix, hpre, hlt]
    simp [hw]
  have hmem : docsRootOf rr ∈ (docStructureDirs rr).filter
      (fun d => existsFS fs d) := by
    rw [List.mem_filter]
    exact ⟨by simp [docStructureDirs, docsRootOf], hdir⟩
  have hstr : (strOfPath (docsRootOf rr)).isPrefixOf (strOfPath p) = true := by
    obtain ⟨t, ht⟩ := hpre
    cases t with
    | nil =>
      rw [List.append_nil] at ht
      rw [ht] at hlt
      exact absurd hlt (lt_irrefl _)
    | cons q t' =>
      rw [← ht, strOfPath_append_cons (docsRootOf rr)
        (by simp [docsRootOf]) q t']
      exact List.isPrefixOf_iff_prefix.mpr (List.prefix_append _ _)
  have hany : (((docStructureDirs rr).filter (fun d => existsFS fs d)).any
      (fun d => (strOfPath d).isPrefixOf (strOfPath p))) = true := by
    rw [List.any_eq_true]
    exact ⟨docsRootOf rr, hmem, hstr⟩
  simp [hany]

theorem allTocItems_baseToc : allTocItems baseToc = [] := rfl

set_option maxHeartbeats 1000000 in
/-- Claim C1, amended: under the canonical layout (the docs dir is
`repo_root/docs`, as wired by `get_paths`), discovery never double-counts:
when the filesystem's file paths are distinct, the paths collected in the
three category lists are pairwise distinct, and after
`generate_toc_structure` the TOC holds exactly one item per discovered
document (its items are a permutation of the per-document items).  The
claimed partition of all documentation files fails in both halves, however:
files lying directly in a structure directory are discovered by no category,
and the orphan list is always empty — the docs root itself is an existing
structure directory whose string form prefixes every globbed file — so such
files are silently dropped (see the counterexample). -/
theorem c1_partition_amended (fs : FS) (rr : List String) (s : DiscoveryState)
    (hnd : (fs.files.map (fun f => f.path)).Nodup) :
    ((((discoverAll fs rr (docsRootOf rr) s).1.user ++
        (discoverAll fs rr (docsRootOf rr) s).1.auto ++
        (discoverAll fs rr (docsRootOf rr) s).1.ai).map
          (fun d => d.path)).Nodup) ∧
    (discoverAll fs rr (docsRootOf rr) s).2.orphaned = [] ∧
    List.Perm
      (allTocItems (generateTocStructure fs (docsRootOf rr)
        (discoverAll fs rr (docsRootOf rr) s).2).1)
      (((discoverAll fs rr (docsRootOf rr) s).1.user ++
        (discoverAll fs rr (docsRootOf rr) s).1.auto ++
        (discoverAll fs rr (docsRootOf rr) s).1.ai).map docTocItem) := by
  have hAD : autoDocsDirOf rr = docsRootOf rr ++ ["auto_docs"] := by
    simp [autoDocsDirOf, docsRootOf]
  have hu := userPaths_nodup fs (userDocsDirOf rr) (docsRootOf rr) hnd
  have ha : ((discoverAutoDocs fs (docsRootOf rr) (autoDocsDirOf rr)).map
      (fun d => d.path)).Nodup := by
    rw [hAD]
    exact autoPaths_nodup fs (docsRootOf rr) hnd
  have hi := aiPaths_nodup fs (aiDocsDirOf rr) (docsRootOf rr) hnd
  have htaga : ∀ x ∈ (discoverAutoDocs fs (docsRootOf rr)
      (autoDocsDirOf rr)).map (fun d => d.path),
      x.get? (rr.length + 1) = some "auto_docs" ∨
        x.get? (rr.length + 1) = some "autoapi" ∨
        x.get? (rr.length + 1) = some "apidoc" ∨
        x.get? (rr.length + 1) = some "reference" := by
    intro x hx
    rw [hAD] at hx
    have hh := mem_autoPaths_pre hx
    simpa [docsRootOf] using hh
  simp only [discoverAll, clearState, emptyState]
  refine ⟨?_, identifyOrphans_docsRoot fs rr _, ?_⟩
  · rw [List.map_append, List.map_append, List.nodup_append]
    refine ⟨?_, hi, ?_⟩
    · rw [List.nodup_append]
      refine ⟨hu, ha, ?_⟩
      intro x hxu hxa
      have t1 := mem_userPaths_tag hxu
      have t2 := htaga x hxa
      rcases t2 with t2 | t2 | t2 | t2 <;> rw [t1] at t2 <;>
        exact absurd (Option.some.inj t2) (by decide)
    · intro x hx hxi
      have t2 := mem_aiPaths_tag hxi
      rcases List.mem_append.mp hx with hxu | hxa
      · have t1 := mem_userPaths_tag hxu
        rw [t1] at t2
        exact absurd (Option.some.inj t2) (by decide)
      · have t1 := htaga x hxa
        rcases t1 with t1 | t1 | t1 | t1 <;> rw [t1] at t2 <;>
          exact absurd (Option.some.inj t2) (by decide)
  · simp only [generateTocStructure, buildToc]
    rw [identifyOrphans_docsRoot fs rr]
    refine (allTocItems_sortStep_perm _).trans ?_
    show List.Perm
      (allTocItems (addDocsToToc (addDocsToToc (addDocsToToc
        (baseToc, ([] : List (List Char)))
        (discoverUserDocs fs (userDocsDirOf rr) (docsRootOf rr)))
        (discoverAutoDocs fs (docsRootOf rr) (autoDocsDirOf rr)))
        (discoverAiDocs fs (aiDocsDirOf rr) (docsRootOf rr))).1) _
    refine (addDocsToToc_perm _ _).trans ?_
    refine (List.Perm.append_right _ (addDocsToToc_perm _ _)).trans ?_
    refine (List.Perm.append_right _
      (List.Perm.append_right _ (addDocsToToc_perm _ _))).trans ?_
    simp [allTocItems_baseToc, List.map_append]

/-- Witness for C1's amended theorem at a concrete repository. -/
theorem c1_partition_amended_witness :
    (fsC1.files.map (fun f => f.path)).Nodup ∧
    (((((discoverAll fsC1 ["repo"] (docsRootOf ["repo"]) emptyState).1.user ++
        (discoverAll fsC1 ["repo"] (docsRootOf ["repo"]) emptyState).1.auto ++
        (discoverAll fsC1 ["repo"] (docsRootOf ["repo"]) emptyState).1.ai).map
          (fun d => d.path)).Nodup) ∧
     (discoverAll fsC1 ["repo"] (docsRootOf ["repo"]) emptyState).2.orphaned
        = [] ∧
     List.Perm
       (allTocItems (generateTocStructure fsC1 (docsRootOf ["repo"])
         (discoverAll fsC1 ["repo"] (docsRootOf ["repo"]) emptyState).2).1)
       (((discoverAll fsC1 ["repo"] (docsRootOf ["repo"]) emptyState).1.user ++
         (discoverAll fsC1 ["repo"] (docsRootOf ["repo"]) emptyState).1.auto ++
         (discoverAll fsC1 ["repo"] (docsRootOf ["repo"]) emptyState).1.ai).map
           docTocItem)) :=
  ⟨by decide, c1_partition_amended fsC1 ["repo"] emptyState (by decide)⟩

end DocForge
